import Mathlib

/-!
Verification of the memcached-backed OpenID store
(`openid/store/memcachestore.py`).

The development shallowly embeds the store: the memcached client is a
key/value state together with an injected list of write outcomes (each
`set`/`delete` consumes one outcome; an empty list means the write
succeeds), and every store method is translated line by line into an
explicit state-passing function.  Strings are modelled as `List Char`.
The two helpers that live outside the translated file
(`cryptutil.sha1`, `oidutil.toBase64`, and the `Association` payload
codec) are modelled from the specification and are marked as such.
-/

/-- Python strings are modelled as lists of characters. -/
abbrev Str := List Char

/-- Python `'%s' % x` rendering of a value that is either a string or
`None`: `None` prints as the four characters `None`. -/
def pyShow : Option Str → Str
  | none => "None".data
  | some s => s

/-- Python truthiness of a value that is either a string or `None`:
`None` and the empty string are falsy. -/
def truthy : Option Str → Bool
  | none => false
  | some s => !s.isEmpty

/-- `s.split(sep, 1)` on the first occurrence of a character: returns the
part before the first `c` and the remainder, or `none` when `c` does not
occur. -/
def splitFirst (c : Char) : Str → Option (Str × Str)
  | [] => none
  | x :: t =>
    if x = c then some ([], t)
    else (splitFirst c t).map (fun p => (x :: p.1, p.2))

theorem splitFirst_append (c : Char) (l r : Str) (h : c ∉ l) :
    splitFirst c (l ++ c :: r) = some (l, r) := by
  induction l with
  | nil => simp [splitFirst]
  | cons x t ih =>
    have hx : x ≠ c := by
      intro hcon
      exact h (hcon ▸ List.mem_cons_self x t)
    have ht : c ∉ t := fun hm => h (List.mem_cons_of_mem x hm)
    simp [splitFirst, hx, ih ht]

/-- Association-list lookup keyed by decidable equality. -/
def lookupA [DecidableEq α] (k : α) : List (α × β) → Option β
  | [] => none
  | (k', v) :: t => if k' = k then some v else lookupA k t

/-- Remove every binding for a key. -/
def removeA [DecidableEq α] (k : α) : List (α × β) → List (α × β)
  | [] => []
  | p :: t => if p.1 = k then removeA k t else p :: removeA k t

/-- Overwrite the binding for a key. -/
def insertA [DecidableEq α] (k : α) (v : β) (l : List (α × β)) :
    List (α × β) :=
  (k, v) :: removeA k l

theorem lookupA_removeA_self [DecidableEq α] (k : α) (l : List (α × β)) :
    lookupA k (removeA k l) = none := by
  induction l with
  | nil => simp [removeA, lookupA]
  | cons p t ih =>
    by_cases h : p.1 = k
    · simpa [removeA, h] using ih
    · simpa [removeA, lookupA, h] using ih

theorem lookupA_removeA_ne [DecidableEq α] (k k' : α) (l : List (α × β))
    (h : k ≠ k') : lookupA k (removeA k' l) = lookupA k l := by
  induction l with
  | nil => simp [removeA, lookupA]
  | cons p t ih =>
    by_cases hp : p.1 = k'
    · have hkk : ¬(k' = k) := fun hc => h hc.symm
      simpa [removeA, hp, lookupA, hkk] using ih
    · by_cases hk : p.1 = k
      · simp [removeA, lookupA, hp, hk, h]
      · simpa [removeA, lookupA, hp, hk] using ih

theorem lookupA_insertA_self [DecidableEq α] (k : α) (v : β)
    (l : List (α × β)) : lookupA k (insertA k v l) = some v := by
  simp [insertA, lookupA]

theorem lookupA_insertA_ne [DecidableEq α] (k k' : α) (v : β)
    (l : List (α × β)) (h : k ≠ k') :
    lookupA k (insertA k' v l) = lookupA k l := by
  have : k' ≠ k := fun hc => h hc.symm
  simp [insertA, lookupA, this, lookupA_removeA_ne k k' l h]

theorem removeA_of_lookupA_none [DecidableEq α] (k : α) (l : List (α × β))
    (h : lookupA k l = none) : removeA k l = l := by
  induction l with
  | nil => simp [removeA]
  | cons p t ih =>
    by_cases hp : p.1 = k
    · simp [lookupA, hp] at h
    · simp [lookupA, hp] at h
      simp [removeA, hp] at *
      exact ih h

theorem lookupA_of_mem_nodup [DecidableEq α] {k : α} {v : β}
    {l : List (α × β)} (hm : (k, v) ∈ l) (hn : (l.map Prod.fst).Nodup) :
    lookupA k l = some v := by
  induction l with
  | nil => cases hm
  | cons p t ih =>
    rcases List.mem_cons.mp hm with h | h
    · subst h
      simp [lookupA]
    · rw [List.map_cons] at hn
      rcases List.nodup_cons.mp hn with ⟨hnotin, hn'⟩
      have hk : p.1 ≠ k := by
        intro hc
        apply hnotin
        rw [hc]
        exact List.mem_map.mpr ⟨(k, v), h, rfl⟩
      simpa [lookupA, hk] using ih h hn'

/-! ### The association payload

`Association` lives in `openid/association.py`, which is not part of the
sources under verification; the spec treats it as "an opaque byte blob
with an expiry field used only for ordering" whose own serialization
round-trips.  Modelled from the spec: a handle, an opaque secret and an
expiry, with an injective length-prefixed wire encoding standing in for
the payload's own (out-of-scope) format. -/

structure Association where
  handle : Str
  secret : Str
  expiresIn : Nat
deriving DecidableEq

/-- Length-prefixed field encoding used by the modelled payload codec. -/
def fieldEnc (s : Str) : Str :=
  List.replicate s.length '1' ++ '#' :: s

/-- Decoder for `fieldEnc`: reads the unary length, the separator, and
the field. -/
def fieldDec (l : Str) : Option (Str × Str) :=
  let n := (l.takeWhile (fun c => decide (c = '1'))).length
  match l.drop n with
  | '#' :: r => if n ≤ r.length then some (r.take n, r.drop n) else none
  | _ => none

theorem takeWhile_replicate_hash (n : Nat) (r : Str) :
    (List.replicate n '1' ++ '#' :: r).takeWhile
      (fun c => decide (c = '1')) = List.replicate n '1' := by
  induction n with
  | zero => simp [List.takeWhile]
  | succ m ih => simpa [List.replicate_succ, List.takeWhile] using ih

theorem fieldDec_enc (s t : Str) :
    fieldDec (fieldEnc s ++ t) = some (s, t) := by
  have htw : ((List.replicate s.length '1' ++ '#' :: (s ++ t)).takeWhile
      (fun c => decide (c = '1'))) = List.replicate s.length '1' := by
    simpa using takeWhile_replicate_hash s.length (s ++ t)
  have hdrop : (List.replicate s.length '1' ++ '#' :: (s ++ t)).drop
      (List.replicate s.length '1').length = '#' :: (s ++ t) := by
    simpa using List.drop_left (List.replicate s.length '1') ('#' :: (s ++ t))
  simp only [fieldEnc, fieldDec, List.append_assoc, List.cons_append] at *
  rw [htw]
  simp only [List.length_replicate] at hdrop ⊢
  rw [show (List.replicate s.length '1' ++ '#' :: (s ++ t)).drop s.length
        = '#' :: (s ++ t) by simpa using hdrop]
  have hle : s.length ≤ (s ++ t).length := by simp
  simp [hle, List.take_left, List.drop_left]

/-- Modelled from the spec: the payload's own serialization
(out of scope, round-trips by its own contract). -/
def Association.serialize (a : Association) : Str :=
  fieldEnc a.handle ++ fieldEnc (List.replicate a.expiresIn '1') ++ a.secret

/-- Modelled from the spec: inverse of `Association.serialize`. -/
def Association.deserialize (l : Str) : Option Association :=
  match fieldDec l with
  | none => none
  | some (h, r1) =>
    match fieldDec r1 with
    | none => none
    | some (e, sec) => some ⟨h, sec, e.length⟩

theorem Association.deserialize_serialize (a : Association) :
    Association.deserialize a.serialize = some a := by
  unfold Association.serialize Association.deserialize
  rw [List.append_assoc]
  simp only [fieldDec_enc]
  simp

/-- The expiry that `Association.getExpiresIn` reports; the spec treats
the expiry as a plain number used only for ordering. -/
def Association.getExpiresIn (a : Association) : Nat := a.expiresIn

/-! ### Association records (`AssociationRecord` in the source) -/

/-- One node of the cache-threaded linked list.  `next` holds the Python
value of the `next` attribute, which the source sets either to a string
or (by assigning a missed `memcache.get`) to `None`. -/
structure AssociationRecord where
  next : Option Str
  assoc : Association
deriving DecidableEq

/-- `AssociationRecord.serialize`: `'%s\n%s' % (self.next, self.assoc.serialize())`. -/
def AssociationRecord.serialize (r : AssociationRecord) : Str :=
  pyShow r.next ++ '\n' :: r.assoc.serialize

/-- `AssociationRecord.deserialize`: split on the first newline, parse the
payload; malformed input (no newline, or a bad payload) is a parse
failure (`ValueError` in the source). -/
def AssociationRecord.deserialize (l : Str) : Option AssociationRecord :=
  match splitFirst '\n' l with
  | none => none
  | some (nx, rest) =>
    (Association.deserialize rest).map (fun a => ⟨some nx, a⟩)

theorem AssociationRecord.deserialize_serialize_rec (r : AssociationRecord)
    (h : '\n' ∉ pyShow r.next) :
    AssociationRecord.deserialize r.serialize
      = some ⟨some (pyShow r.next), r.assoc⟩ := by
  unfold AssociationRecord.serialize AssociationRecord.deserialize
  rw [splitFirst_append '\n' (pyShow r.next) r.assoc.serialize h]
  simp [Association.deserialize_serialize]

/-! ### The memcached client and the store state

The cache client is external (python-memcached).  Its keyspace is split
by the store's own key derivation — the `N`/`A`/`S`/`K` code characters
plus a collision-resistant digest (spec 4.1a) — so keys are modelled by
the structured type `MKey` and the cache by one association list per
entity kind.  Write outcomes are injected through a list of booleans
(`fails`); an exhausted list means the write succeeds.  `getAuthKey`'s
random draws are likewise injected through `rands`.  Every cache call is
appended to `trace`. -/

inductive MKey where
  | nonceK (nonce : Str)
  | assocK (url handle : Str)
  | rootK (url : Str)
  | authK
deriving DecidableEq

/-- Cache operations, as issued by the store.  `setIfAbsent` is the
create-if-absent operation of the cache contract (spec section 6); it is
part of the operation language so that claims about which operation the
store issues can be stated. -/
inductive Op where
  | get (k : MKey)
  | set (k : MKey) (v : Str) (ttl : Option Nat)
  | setIfAbsent (k : MKey) (v : Str)
  | del (k : MKey)
deriving DecidableEq

structure Cache where
  assocs : List ((Str × Str) × Str)
  roots : List (Str × Str)
  nonces : List (Str × Str)
  secret : Option Str
deriving DecidableEq

def cGet : MKey → Cache → Option Str
  | .nonceK n, c => lookupA n c.nonces
  | .assocK u h, c => lookupA (u, h) c.assocs
  | .rootK u, c => lookupA u c.roots
  | .authK, c => c.secret

def cSet : MKey → Str → Cache → Cache
  | .nonceK n, v, c => { c with nonces := insertA n v c.nonces }
  | .assocK u h, v, c => { c with assocs := insertA (u, h) v c.assocs }
  | .rootK u, v, c => { c with roots := insertA u v c.roots }
  | .authK, v, c => { c with secret := some v }

def cDel : MKey → Cache → Cache
  | .nonceK n, c => { c with nonces := removeA n c.nonces }
  | .assocK u h, c => { c with assocs := removeA (u, h) c.assocs }
  | .rootK u, c => { c with roots := removeA u c.roots }
  | .authK, c => { c with secret := none }

structure St where
  cache : Cache
  fails : List Bool
  rands : List Str
  trace : List Op
deriving DecidableEq

def popFail : List Bool → Bool × List Bool
  | [] => (true, [])
  | b :: t => (b, t)

/-- `memcache.get`. -/
def mcGet (k : MKey) (st : St) : Option Str × St :=
  (cGet k st.cache, { st with trace := st.trace ++ [Op.get k] })

/-- `memcache.set`: consumes one injected outcome; on success the key is
written, on failure the cache is unchanged and `False` is returned. -/
def mcSet (k : MKey) (v : Str) (ttl : Option Nat) (st : St) : Bool × St :=
  let pr := popFail st.fails
  (pr.1, { st with
            cache := if pr.1 then cSet k v st.cache else st.cache,
            fails := pr.2,
            trace := st.trace ++ [Op.set k v ttl] })

/-- `memcache.delete`: consumes one injected outcome. -/
def mcDelete (k : MKey) (st : St) : Bool × St :=
  let pr := popFail st.fails
  (pr.1, { st with
            cache := if pr.1 then cDel k st.cache else st.cache,
            fails := pr.2,
            trace := st.trace ++ [Op.del k] })

/-! ### The store methods (`MemCacheOpenIDStore`) -/

/-- `_getAssociationRecord`: point read plus deserialize; a record that
is present but malformed is deleted as a side effect and reported as
absent (the `except ValueError` branch). -/
def getAssociationRecord (url handle : Str) (st : St) :
    Option AssociationRecord × St :=
  let g := mcGet (.assocK url handle) st
  match g.1 with
  | none => (none, g.2)
  | some bytes =>
    match AssociationRecord.deserialize bytes with
    | some r => (some r, g.2)
    | none => (none, (mcDelete (.assocK url handle) g.2).2)

/-- The pure content of a point read from a cache: the stored bytes,
deserialized. -/
def readRec (c : Cache) (url h : Str) : Option AssociationRecord :=
  (lookupA (url, h) c.assocs).bind AssociationRecord.deserialize

/-- The pure content of a point read in a store state. -/
def getRecPure (st : St) (url h : Str) : Option AssociationRecord :=
  readRec st.cache url h

/-- The loop of `_scanAssociationRecords`: follow `next` handles keeping
the record with the largest expiry (`best[0] <= expires` keeps the later
record on ties).  `none` means the loop did not finish within `fuel`
iterations; the Python loop has no fuel and simply may not terminate. -/
def scanLoop (url : Str) :
    Nat → Option Str → Option (Nat × AssociationRecord) → St →
    Option (Option AssociationRecord × St)
  | 0, _, _, _ => none
  | fuel + 1, nextH, best, st =>
    match nextH with
    | none => some (best.map (fun p => p.2), st)
    | some h =>
      if h.isEmpty then some (best.map (fun p => p.2), st)
      else
        let g := getAssociationRecord url h st
        match g.1 with
        | none => some (best.map (fun p => p.2), g.2)
        | some r =>
          let e := r.assoc.getExpiresIn
          let best' := match best with
            | none => some (e, r)
            | some (be, br) =>
              if be ≤ e then some (e, r) else some (be, br)
          scanLoop url fuel r.next best' g.2

/-- `_scanAssociationRecords`: read the root pointer, then walk. -/
def scanAssociationRecords (fuel : Nat) (url : Str) (st : St) :
    Option (Option AssociationRecord × St) :=
  let g := mcGet (.rootK url) st
  scanLoop url fuel g.1 none g.2

/-- `getAssociation`: dispatch on whether a handle was supplied. -/
def getAssociation (fuel : Nat) (url : Str) (handle : Option Str)
    (st : St) : Option (Option Association × St) :=
  match handle with
  | none =>
    (scanAssociationRecords fuel url st).map
      (fun p => (p.1.map (fun r => r.assoc), p.2))
  | some h =>
    let g := getAssociationRecord url h st
    some (g.1.map (fun r => r.assoc), g.2)

/-- `storeAssociation`.  For a fresh handle the source builds
`updates = [(assoc_key, rec_s), (root_key, handle)]` — the record write
is inserted at position 0, in front of the root-pointer write — and the
new record's `next` is the raw result of `memcache.get(root_key)`
(which is Python `None` when no root exists).  A failed write raises
`RuntimeError`. -/
def storeAssociation (url : Str) (assoc : Association) (st : St) :
    Except String (Unit × St) :=
  let g := getAssociationRecord url assoc.handle st
  match g.1 with
  | none =>
    let gr := mcGet (.rootK url) g.2
    let rec0 : AssociationRecord := ⟨gr.1, assoc⟩
    let s1 := mcSet (.assocK url assoc.handle) rec0.serialize none gr.2
    if s1.1 then
      let s2 := mcSet (.rootK url) assoc.handle none s1.2
      if s2.1 then .ok ((), s2.2)
      else .error "Error setting memcache key"
    else .error "Error setting memcache key"
  | some old =>
    if old.next = some assoc.handle then .error "AssertionError"
    else
      let rec0 : AssociationRecord := ⟨old.next, assoc⟩
      let s1 := mcSet (.assocK url assoc.handle) rec0.serialize none g.2
      if s1.1 then .ok ((), s1.2)
      else .error "Error setting memcache key"

/-- The predecessor-search loop of `removeAssociation`: walk from the
root until the walk value is falsy or equals the target handle, tracking
the record last read (`ptr_rec`); a missing record breaks the loop with
`ptr_rec = None`.  `none` means the loop did not finish within `fuel`. -/
def removeLoop (url handle : Str) :
    Nat → Option Str → Option AssociationRecord → St →
    Option ((Option Str × Option AssociationRecord) × St)
  | 0, _, _, _ => none
  | fuel + 1, nextH, ptr, st =>
    match nextH with
    | none => some ((none, ptr), st)
    | some nh =>
      if nh.isEmpty || nh = handle then some ((some nh, ptr), st)
      else
        let g := getAssociationRecord url nh st
        match g.1 with
        | none => some ((some nh, none), g.2)
        | some r => removeLoop url handle fuel r.next (some r) g.2

/-- `removeAssociation`: fetch the target, search for its predecessor,
relink (head: rewrite the root pointer; interior: rewrite the
predecessor record), then delete the target.  A failed relink write or
a failed delete raises. -/
def removeAssociation (fuel : Nat) (url handle : Str) (st : St) :
    Option (Except String (Bool × St)) :=
  let g := getAssociationRecord url handle st
  match g.1 with
  | none => some (.ok (false, g.2))
  | some rec0 =>
    let gr := mcGet (.rootK url) g.2
    match removeLoop url handle fuel gr.1 none gr.2 with
    | none => none
    | some ((nextH, ptr), st3) =>
      let afterRelink : Bool × St :=
        if truthy nextH then
          if ptr = none ∧ nextH = some handle then
            mcSet (.rootK url) (pyShow rec0.next) none st3
          else if nextH = some handle then
            match ptr with
            | some pr =>
              let pr' : AssociationRecord := ⟨rec0.next, pr.assoc⟩
              mcSet (.assocK url pr.assoc.handle) pr'.serialize none st3
            | none => (true, st3)
          else (true, st3)
        else (true, st3)
      if afterRelink.1 then
        let d := mcDelete (.assocK url handle) afterRelink.2
        if d.1 then some (.ok (true, d.2))
        else some (.error "MemCached error deleting association")
      else some (.error "Error setting memcache key")

/-- The retry loop of `getAuthKey` (`for _ in xrange(3)`): read the
well-known key; on a miss draw a random secret and attempt a plain
`memcache.set`; a successful write returns the new secret, a failed one
loops back to the read; exhausting the attempts raises
`RuntimeError('memcache looped!')`. -/
def authKeyLoop : Nat → St → Except String (Str × St)
  | 0, _ => .error "memcache looped!"
  | n + 1, st =>
    let g := mcGet .authK st
    match g.1 with
    | some k => .ok (k, g.2)
    | none =>
      let drawn : Str × List Str := match g.2.rands with
        | [] => (List.replicate 20 'x', [])
        | r :: t => (r, t)
      let st2 := { g.2 with rands := drawn.2 }
      let s1 := mcSet .authK drawn.1 none st2
      if s1.1 then .ok (drawn.1, s1.2)
      else authKeyLoop n s1.2

/-- `getAuthKey`: a fixed secret supplied at construction is returned
directly; otherwise the bounded read/generate/set loop runs. -/
def getAuthKey (authKey : Option Str) (st : St) :
    Except String (Str × St) :=
  match authKey with
  | some k => .ok (k, st)
  | none => authKeyLoop 3 st

/-- `storeNonce`: a single `memcache.set` with the 6-hour timeout whose
result is discarded. -/
def storeNonce (nonce : Str) (st : St) : Unit × St :=
  ((), (mcSet (.nonceK nonce) [] (some 21600) st).2)

/-- `useNonce`: read the marker; if present, delete it (result ignored)
and report fresh. -/
def useNonce (nonce : Str) (st : St) : Bool × St :=
  let g := mcGet (.nonceK nonce) st
  match g.1 with
  | none => (false, g.2)
  | some _ => (true, (mcDelete (.nonceK nonce) g.2).2)

/-- The empty store state: empty cache, no injected failures, no random
draws, empty trace. -/
def emptySt : St := ⟨⟨[], [], [], none⟩, [], [], []⟩

/-! ### The key encoder

`_nonceKey`, `_assocKey`, `_rootKey` and `setKeyPrefix` derive the byte
strings used as cache keys.  They call `cryptutil.sha1` and
`oidutil.toBase64`, which are not part of the sources under
verification. -/

/-- Modelled from the spec: `cryptutil.sha1` (not under `src/`) — the
"one-way hashing (e.g., a 160-bit digest)" of section 4.1: a 20-byte
digest of the input, here a concrete mixing function. -/
def sha1 (s : Str) : List Nat :=
  (List.range 20).map
    (fun i => (s.foldl (fun a c => (a * 131 + c.toNat + i) % 256) (i + 97)) % 256)

theorem sha1_length (s : Str) : (sha1 s).length = 20 := by
  simp [sha1]

/-- The standard base64 alphabet. -/
def b64Alphabet : Str :=
  "ABCDEFGHIJKLMNOPQRSTUVWXYZabcdefghijklmnopqrstuvwxyz0123456789+/".data

def b64Char (n : Nat) : Char := b64Alphabet.getD n 'A'

/-- Modelled from the spec: `oidutil.toBase64` (not under `src/`) —
encoding the digest "in a compact printable alphabet": standard base64
without line breaks, three input bytes per four output characters, with
`=` padding. -/
def toBase64 : List Nat → Str
  | [] => []
  | [b1] => [b64Char (b1 / 4 % 64), b64Char (b1 % 4 * 16), '=', '=']
  | [b1, b2] =>
    [b64Char (b1 / 4 % 64), b64Char (b1 % 4 * 16 + b2 / 16 % 16),
     b64Char (b2 % 16 * 4), '=']
  | b1 :: b2 :: b3 :: rest =>
    [b64Char (b1 / 4 % 64), b64Char (b1 % 4 * 16 + b2 / 16 % 16),
     b64Char (b2 % 16 * 4 + b3 / 64 % 4), b64Char (b3 % 64)]
      ++ toBase64 rest

theorem toBase64_length (l : List Nat) :
    (toBase64 l).length = 4 * ((l.length + 2) / 3) := by
  induction l using toBase64.induct with
  | case1 => simp [toBase64]
  | case2 b1 => simp [toBase64]
  | case3 b1 b2 => simp [toBase64]
  | case4 b1 b2 b3 rest ih =>
    simp only [toBase64, List.length_append, List.length_cons,
      List.length_nil, ih]
    omega

/-- `_nonceKey`: `key_prefix + 'N' + nonce`. -/
def nonceKeyOf (pfx nonce : Str) : Str := pfx ++ 'N' :: nonce

/-- The string component of `_assocKey`:
`key_prefix + 'A' + toBase64(sha1(server_url) + sha1(handle))` (the
integer shard hint in the returned tuple is a routing hint only). -/
def assocKeyOf (pfx url handle : Str) : Str :=
  pfx ++ 'A' :: toBase64 (sha1 url ++ sha1 handle)

/-- The string component of `_rootKey`:
`key_prefix + 'S' + toBase64(sha1(server_url))`. -/
def rootKeyOf (pfx url : Str) : Str :=
  pfx ++ 'S' :: toBase64 (sha1 url)

/-- `setKeyPrefix`: the auth-key key is `prefix + 'K'`. -/
def authKeyOf (pfx : Str) : Str := pfx ++ ['K']

theorem assocKeyOf_length (pfx url handle : Str) :
    (assocKeyOf pfx url handle).length = pfx.length + 57 := by
  simp [assocKeyOf, toBase64_length, sha1_length]

theorem rootKeyOf_length (pfx url : Str) :
    (rootKeyOf pfx url).length = pfx.length + 29 := by
  simp [rootKeyOf, toBase64_length, sha1_length]

theorem nonceKeyOf_length (pfx nonce : Str) :
    (nonceKeyOf pfx nonce).length = pfx.length + 1 + nonce.length := by
  simp [nonceKeyOf]
  omega

/-! ### Cache-threaded chains

`chainSeg c url next hs fin` says that walking `next`-links in cache `c`
visits exactly the handle/record pairs `hs` and leaves the walk value at
`fin`; `chainStop` says the walk value ends the loop (falsy, or a handle
with no stored bytes); `chainAt` combines both, and `rootChain` starts
the walk at the root pointer.  These are executable (`Bool`) so concrete
instances evaluate by `decide`. -/

def chainSeg (c : Cache) (url : Str) :
    Option Str → List (Str × AssociationRecord) → Option Str → Bool
  | next, [], fin => decide (next = fin)
  | next, (h, r) :: t, fin =>
    decide (next = some h) && !h.isEmpty &&
      decide (readRec c url h = some r) && chainSeg c url r.next t fin

def chainEnd (next : Option Str) (hs : List (Str × AssociationRecord)) :
    Option Str :=
  match hs.getLast? with
  | none => next
  | some p => p.2.next

def chainStop (c : Cache) (url : Str) : Option Str → Bool
  | none => true
  | some s => s.isEmpty || decide (lookupA (url, s) c.assocs = none)

def chainAt (c : Cache) (url : Str) (next : Option Str)
    (hs : List (Str × AssociationRecord)) : Bool :=
  chainSeg c url next hs (chainEnd next hs) && chainStop c url (chainEnd next hs)

def rootChain (st : St) (url : Str)
    (hs : List (Str × AssociationRecord)) : Bool :=
  chainAt st.cache url (lookupA url st.cache.roots) hs

/-- Well-formedness of a chain as read back from the cache: distinct,
non-empty, newline-free handles; each record carries its own handle; the
`next` attribute is an actual string (deserialized records always are)
and is newline-free.  Decidable, so concrete instances close by
`decide`. -/
def wfChain (hs : List (Str × AssociationRecord)) : Prop :=
  (hs.map Prod.fst).Nodup ∧
  ∀ p ∈ hs, p.1 ≠ [] ∧ '\n' ∉ p.1 ∧ p.2.assoc.handle = p.1 ∧
    p.2.next ≠ none ∧ '\n' ∉ pyShow p.2.next

instance (hs : List (Str × AssociationRecord)) :
    Decidable (wfChain hs) := by
  unfold wfChain
  exact inferInstance

theorem chainEnd_cons (next : Option Str) (h : Str)
    (r : AssociationRecord) (t : List (Str × AssociationRecord)) :
    chainEnd next ((h, r) :: t) = chainEnd r.next t := by
  cases t with
  | nil => simp [chainEnd]
  | cons q t' =>
    simp only [chainEnd, List.getLast?_cons_cons]
    rcases hq : (q :: t').getLast? with _ | p
    · simp at hq
    · rfl

theorem chainSeg_append (c : Cache) (url : Str)
    (xs : List (Str × AssociationRecord)) :
    ∀ (ys : List (Str × AssociationRecord)) (next fin : Option Str),
    chainSeg c url next (xs ++ ys) fin = true ↔
      (chainSeg c url next xs (chainEnd next xs) = true ∧
       chainSeg c url (chainEnd next xs) ys fin = true) := by
  induction xs with
  | nil =>
    intro ys next fin
    simp [chainSeg, chainEnd]
  | cons p t ih =>
    intro ys next fin
    obtain ⟨h, r⟩ := p
    rw [List.cons_append]
    simp only [chainSeg, Bool.and_eq_true, decide_eq_true_eq, chainEnd_cons]
    constructor
    · rintro ⟨⟨⟨h1, h2⟩, h3⟩, h4⟩
      rcases (ih ys r.next fin).mp h4 with ⟨h5, h6⟩
      exact ⟨⟨⟨⟨h1, h2⟩, h3⟩, h5⟩, h6⟩
    · rintro ⟨⟨⟨⟨h1, h2⟩, h3⟩, h5⟩, h6⟩
      exact ⟨⟨⟨h1, h2⟩, h3⟩, (ih ys r.next fin).mpr ⟨h5, h6⟩⟩

theorem chainSeg_mem (c : Cache) (url : Str) :
    ∀ (hs : List (Str × AssociationRecord)) (next fin : Option Str),
    chainSeg c url next hs fin = true →
    ∀ p ∈ hs, readRec c url p.1 = some p.2 := by
  intro hs
  induction hs with
  | nil =>
    intro next fin _ p hp
    cases hp
  | cons q t ih =>
    intro next fin hseg p hp
    obtain ⟨h, r⟩ := q
    simp only [chainSeg, Bool.and_eq_true, decide_eq_true_eq] at hseg
    rcases List.mem_cons.mp hp with hp | hp
    · subst hp
      exact hseg.1.2
    · exact ih r.next fin hseg.2 p hp

theorem chainSeg_congr (c c' : Cache) (url : Str) :
    ∀ (hs : List (Str × AssociationRecord)) (next fin : Option Str),
    (∀ p ∈ hs, readRec c' url p.1 = readRec c url p.1) →
    chainSeg c' url next hs fin = chainSeg c url next hs fin := by
  intro hs
  induction hs with
  | nil => intro next fin _; rfl
  | cons q t ih =>
    intro next fin hsame
    obtain ⟨h, r⟩ := q
    simp only [chainSeg]
    rw [hsame (h, r) (List.mem_cons_self _ _),
        ih r.next fin (fun p hp => hsame p (List.mem_cons_of_mem _ hp))]

/-- The `best` accumulator update of the scan loop
(`best is None or best[0] <= expires`, which replaces the accumulator on
ties). -/
def bestStep (b : Option (Nat × AssociationRecord))
    (p : Str × AssociationRecord) : Option (Nat × AssociationRecord) :=
  match b with
  | none => some (p.2.assoc.getExpiresIn, p.2)
  | some (be, br) =>
    if be ≤ p.2.assoc.getExpiresIn then some (p.2.assoc.getExpiresIn, p.2)
    else some (be, br)

/-- The scan loop's accumulator after visiting a whole chain. -/
def bestF (b : Option (Nat × AssociationRecord))
    (hs : List (Str × AssociationRecord)) :
    Option (Nat × AssociationRecord) :=
  hs.foldl bestStep b

theorem bestF_cons (b : Option (Nat × AssociationRecord))
    (p : Str × AssociationRecord) (t : List (Str × AssociationRecord)) :
    bestF b (p :: t) = bestF (bestStep b p) t := rfl

theorem bestF_isSome (hs : List (Str × AssociationRecord)) :
    ∀ (b : Option (Nat × AssociationRecord)), hs ≠ [] ∨ b.isSome →
    (bestF b hs).isSome := by
  induction hs with
  | nil =>
    intro b hb
    rcases hb with hb | hb
    · exact absurd rfl hb
    · simpa [bestF] using hb
  | cons p t ih =>
    intro b _
    rw [bestF_cons]
    apply ih
    cases t with
    | nil =>
      right
      cases b with
      | none => simp [bestStep]
      | some q => obtain ⟨be, br⟩ := q; simp [bestStep]; split <;> simp
    | cons q t' => left; simp

theorem bestF_le (hs : List (Str × AssociationRecord)) :
    ∀ (b : Option (Nat × AssociationRecord)) (q : Nat × AssociationRecord),
    bestF b hs = some q →
    (∀ p ∈ hs, p.2.assoc.getExpiresIn ≤ q.1) ∧
    (∀ x, b = some x → x.1 ≤ q.1) := by
  induction hs with
  | nil =>
    intro b q hq
    simp only [bestF, List.foldl_nil] at hq
    exact ⟨fun p hp => absurd hp (List.not_mem_nil p),
      fun x hx => by rw [hq] at hx; injection hx with h; rw [h]⟩
  | cons p t ih =>
    intro b q hq
    rw [bestF_cons] at hq
    rcases ih (bestStep b p) q hq with ⟨hmem, hacc⟩
    have hstep : ∀ x, bestStep b p = some x →
        p.2.assoc.getExpiresIn ≤ x.1 ∧ (∀ y, b = some y → y.1 ≤ x.1) := by
      intro x hx
      cases b with
      | none =>
        simp only [bestStep] at hx
        injection hx with h
        rw [← h]
        exact ⟨le_refl _, fun y hy => by cases hy⟩
      | some y =>
        obtain ⟨be, br⟩ := y
        simp only [bestStep] at hx
        split at hx <;> injection hx with h <;> rw [← h]
        · next hle =>
          exact ⟨le_refl _, fun y hy => by
            injection hy with h2; rw [← h2]; exact hle⟩
        · next hlt =>
          exact ⟨by omega, fun y hy => by injection hy with h2; rw [← h2]⟩
    have hsome : ∃ x, bestStep b p = some x := by
      cases b with
      | none => exact ⟨_, rfl⟩
      | some y =>
        obtain ⟨be, br⟩ := y
        simp only [bestStep]
        split <;> exact ⟨_, rfl⟩
    obtain ⟨x, hx⟩ := hsome
    rcases hstep x hx with ⟨hpx, hbx⟩
    have hxq : x.1 ≤ q.1 := hacc x hx
    constructor
    · intro p' hp'
      rcases List.mem_cons.mp hp' with hp' | hp'
      · subst hp'
        exact le_trans hpx hxq
      · exact hmem p' hp'
    · intro y hy
      exact le_trans (hbx y hy) hxq

theorem bestF_split (hs : List (Str × AssociationRecord)) :
    ∀ (b : Option (Nat × AssociationRecord)) (q : Nat × AssociationRecord),
    bestF b hs = some q →
    (∃ pre p post, hs = pre ++ p :: post ∧
      q = (p.2.assoc.getExpiresIn, p.2) ∧
      ∀ p' ∈ post, p'.2.assoc.getExpiresIn < q.1) ∨
    (b = some q ∧ ∀ p' ∈ hs, p'.2.assoc.getExpiresIn < q.1) := by
  induction hs with
  | nil =>
    intro b q hq
    right
    simp only [bestF, List.foldl_nil] at hq
    exact ⟨hq, fun p hp => absurd hp (List.not_mem_nil p)⟩
  | cons p t ih =>
    intro b q hq
    rw [bestF_cons] at hq
    rcases ih (bestStep b p) q hq with ⟨pre, p0, post, hsplit, hqv, hpost⟩ | ⟨hstep, hall⟩
    · left
      exact ⟨p :: pre, p0, post, by simp [hsplit], hqv, hpost⟩
    · cases b with
      | none =>
        left
        simp only [bestStep] at hstep
        have hq' : q = (p.2.assoc.getExpiresIn, p.2) := by
          injection hstep with h2
          exact h2.symm
        exact ⟨[], p, t, rfl, hq', fun p' hp' => hall p' hp'⟩
      | some y =>
        obtain ⟨be, br⟩ := y
        simp only [bestStep] at hstep
        split at hstep
        · next hle =>
          left
          have hq' : q = (p.2.assoc.getExpiresIn, p.2) := by
            injection hstep with h2
            exact h2.symm
          exact ⟨[], p, t, rfl, hq', fun p' hp' => hall p' hp'⟩
        · next hgt =>
          right
          have hq' : (be, br) = q := by
            injection hstep with h2
          refine ⟨by rw [← hq'], ?_⟩
          intro p' hp'
          rcases List.mem_cons.mp hp' with hp' | hp'
          · subst hp'
            rw [← hq']
            simpa using Nat.lt_of_not_le hgt
          · exact hall p' hp'

theorem getAssociationRecord_some (url h : Str) (st : St)
    (r : AssociationRecord) (hp : readRec st.cache url h = some r) :
    getAssociationRecord url h st =
      (some r, { st with trace := st.trace ++ [Op.get (.assocK url h)] }) := by
  unfold readRec at hp
  cases hl : lookupA (url, h) st.cache.assocs with
  | none => rw [hl] at hp; simp at hp
  | some bytes =>
    rw [hl] at hp
    simp only [Option.some_bind] at hp
    simp only [getAssociationRecord, mcGet, cGet]
    rw [hl]
    simp [hp]

theorem getAssociationRecord_missing (url h : Str) (st : St)
    (hl : lookupA (url, h) st.cache.assocs = none) :
    getAssociationRecord url h st =
      (none, { st with trace := st.trace ++ [Op.get (.assocK url h)] }) := by
  simp only [getAssociationRecord, mcGet, cGet]
  rw [hl]

theorem scanLoop_seg (url : Str) :
    ∀ (hs : List (Str × AssociationRecord)) (next fin : Option Str)
      (b : Option (Nat × AssociationRecord)) (st : St) (fuel : Nat),
    chainSeg st.cache url next hs fin = true →
    chainStop st.cache url fin = true →
    hs.length < fuel →
    ∃ st', scanLoop url fuel next b st
        = some ((bestF b hs).map (fun p => p.2), st') ∧
      st'.cache = st.cache ∧ st'.fails = st.fails ∧ st'.rands = st.rands := by
  intro hs
  induction hs with
  | nil =>
    intro next fin b st fuel hseg hstop hlen
    simp only [chainSeg, decide_eq_true_eq] at hseg
    subst hseg
    obtain ⟨m, rfl⟩ : ∃ m, fuel = m + 1 := ⟨fuel - 1, by omega⟩
    cases next with
    | none => exact ⟨st, by simp [scanLoop, bestF], rfl, rfl, rfl⟩
    | some s =>
      simp only [chainStop] at hstop
      by_cases hse : s.isEmpty
      · exact ⟨st, by simp [scanLoop, hse, bestF], rfl, rfl, rfl⟩
      · have hl : lookupA (url, s) st.cache.assocs = none := by
          rcases (Bool.or_eq_true _ _).mp hstop with hc | hc
          · exact absurd hc hse
          · exact of_decide_eq_true hc
        refine ⟨{ st with trace := st.trace ++ [Op.get (.assocK url s)] },
          ?_, rfl, rfl, rfl⟩
        simp [scanLoop, hse, getAssociationRecord_missing url s st hl, bestF]
  | cons q t ih =>
    intro next fin b st fuel hseg hstop hlen
    obtain ⟨h, r⟩ := q
    simp only [chainSeg, Bool.and_eq_true, decide_eq_true_eq] at hseg
    obtain ⟨⟨⟨hnext, hne⟩, hrec⟩, hseg'⟩ := hseg
    subst hnext
    obtain ⟨m, rfl⟩ : ∃ m, fuel = m + 1 := ⟨fuel - 1, by omega⟩
    have hne' : h.isEmpty = false := by simpa using hne
    have hga := getAssociationRecord_some url h st r hrec
    have hlen' : t.length < m := by
      simp only [List.length_cons] at hlen
      omega
    obtain ⟨st', heq, hc, hf, hr2⟩ :=
      ih r.next fin (bestStep b (h, r))
        { st with trace := st.trace ++ [Op.get (.assocK url h)] } m
        hseg' hstop hlen'
    refine ⟨st', ?_, hc, hf, hr2⟩
    rw [bestF_cons]
    simp only [scanLoop, hne', Bool.false_eq_true, if_false, hga]
    exact heq

theorem scan_of_chain (url : Str) (st : St)
    (hs : List (Str × AssociationRecord)) (fuel : Nat)
    (hchain : rootChain st url hs = true) (hfuel : hs.length < fuel) :
    ∃ st', scanAssociationRecords fuel url st
        = some ((bestF none hs).map (fun p => p.2), st') ∧
      st'.cache = st.cache ∧ st'.fails = st.fails ∧ st'.rands = st.rands := by
  unfold rootChain chainAt at hchain
  obtain ⟨hseg, hstop⟩ := Bool.and_eq_true_iff.mp hchain
  obtain ⟨st', heq, hc, hf, hr⟩ :=
    scanLoop_seg url hs (lookupA url st.cache.roots)
      (chainEnd (lookupA url st.cache.roots) hs) none
      { st with trace := st.trace ++ [Op.get (.rootK url)] } fuel hseg hstop hfuel
  refine ⟨st', ?_, hc, hf, hr⟩
  simp only [scanAssociationRecords, mcGet, cGet]
  exact heq

/-! ### States built by a sequence of fresh stores

After storing associations `a1, ..., ak` (distinct handles) under one
server, the cache holds a root pointer to `ak` and records linked
`ak -> ... -> a1 -> "None"` (the first record's `next` is the rendering
of Python `None`, see `storeAssociation`).  `linkUp` builds the chain in
walk order (most recent first). -/

def linkUp : List Association → List (Str × AssociationRecord)
  | [] => []
  | a :: t =>
    (a.handle, ⟨some (pyShow (t.head?.map Association.handle)), a⟩) :: linkUp t

/-- The chain, in walk order, after storing `l` in sequence. -/
def chainOf (l : List Association) : List (Str × AssociationRecord) :=
  linkUp l.reverse

/-- The root-pointer value after storing `l` in sequence. -/
def rootOf (l : List Association) : Option Str :=
  (chainOf l).head?.map Prod.fst

/-- The association entries of the cache after storing `l` in sequence. -/
def assocsOf (url : Str) (l : List Association) : List ((Str × Str) × Str) :=
  (chainOf l).map (fun p => ((url, p.1), AssociationRecord.serialize p.2))

/-- The root entries of the cache after storing `l` in sequence. -/
def rootsOf (url : Str) (l : List Association) : List (Str × Str) :=
  match rootOf l with
  | none => []
  | some h => [(url, h)]

/-- Run a sequence of `storeAssociation` calls. -/
def runStores (url : Str) : List Association → St → Except String St
  | [], st => .ok st
  | a :: t, st =>
    match storeAssociation url a st with
    | .ok p => runStores url t p.2
    | .error e => .error e

theorem serialize_mk_pyShow (o : Option Str) (a : Association) :
    AssociationRecord.serialize ⟨o, a⟩
      = AssociationRecord.serialize ⟨some (pyShow o), a⟩ := by
  cases o <;> rfl

theorem linkUp_map_fst (c : List Association) :
    (linkUp c).map Prod.fst = c.map Association.handle := by
  induction c with
  | nil => rfl
  | cons a t ih => simp [linkUp, ih]

theorem linkUp_map_assoc (c : List Association) :
    (linkUp c).map (fun p => p.2.assoc) = c := by
  induction c with
  | nil => rfl
  | cons a t ih => simp [linkUp, ih]

theorem linkUp_head (c : List Association) :
    (linkUp c).head?.map Prod.fst = c.head?.map Association.handle := by
  cases c <;> simp [linkUp]

theorem linkUp_length (c : List Association) :
    (linkUp c).length = c.length := by
  induction c with
  | nil => rfl
  | cons a t ih => simp [linkUp, ih]

theorem chainOf_append (l : List Association) (a : Association) :
    chainOf (l ++ [a])
      = (a.handle, ⟨some (pyShow (rootOf l)), a⟩) :: chainOf l := by
  unfold chainOf rootOf chainOf
  rw [List.reverse_append]
  simp [linkUp, linkUp_head]

theorem rootOf_append (l : List Association) (a : Association) :
    rootOf (l ++ [a]) = some a.handle := by
  unfold rootOf
  rw [chainOf_append]
  simp

theorem lookupA_rootsOf (url : Str) (l : List Association) :
    lookupA url (rootsOf url l) = rootOf l := by
  unfold rootsOf
  cases h : rootOf l <;> simp [lookupA]

theorem assocsOf_append (url : Str) (l : List Association)
    (a : Association) :
    assocsOf url (l ++ [a])
      = ((url, a.handle),
          AssociationRecord.serialize ⟨some (pyShow (rootOf l)), a⟩)
        :: assocsOf url l := by
  unfold assocsOf
  rw [chainOf_append]
  simp

theorem rootsOf_append (url : Str) (l : List Association)
    (a : Association) : rootsOf url (l ++ [a]) = [(url, a.handle)] := by
  unfold rootsOf
  rw [rootOf_append]

theorem insertA_rootsOf (url : Str) (l : List Association) (h' : Str) :
    insertA url h' (rootsOf url l) = [(url, h')] := by
  unfold rootsOf insertA
  cases rootOf l <;> simp [removeA]

theorem lookupA_none_of_not_mem_keys [DecidableEq α] (k : α)
    (L : List (α × β)) (h : k ∉ L.map Prod.fst) : lookupA k L = none := by
  induction L with
  | nil => rfl
  | cons p t ih =>
    have hp : p.1 ≠ k := by
      intro hc
      exact h (by rw [← hc]; simp)
    have ht : k ∉ t.map Prod.fst := by
      intro hm
      exact h (by simp [hm])
    simp [lookupA, hp, ih ht]

theorem lookupA_assocsOf_none (url : Str) (l : List Association) (h : Str)
    (hnot : h ∉ l.map Association.handle) :
    lookupA (url, h) (assocsOf url l) = none := by
  apply lookupA_none_of_not_mem_keys
  intro hmem
  unfold assocsOf at hmem
  rw [List.map_map] at hmem
  obtain ⟨p, hp, hpe⟩ := List.mem_map.mp hmem
  have hph : p.1 = h := by
    have := congrArg Prod.snd hpe
    simpa using this
  apply hnot
  have hfst : p.1 ∈ (chainOf l).map Prod.fst := List.mem_map.mpr ⟨p, hp, rfl⟩
  rw [chainOf, linkUp_map_fst] at hfst
  rw [← hph]
  simpa using hfst

theorem storeAssociation_fresh (url : Str) (a : Association) (st : St)
    (hfresh : lookupA (url, a.handle) st.cache.assocs = none)
    (hfails : st.fails = []) :
    storeAssociation url a st = .ok ((),
      { cache :=
          { assocs := insertA (url, a.handle)
              (AssociationRecord.serialize ⟨lookupA url st.cache.roots, a⟩)
              st.cache.assocs,
            roots := insertA url a.handle st.cache.roots,
            nonces := st.cache.nonces,
            secret := st.cache.secret },
        fails := [],
        rands := st.rands,
        trace := st.trace ++
          [Op.get (.assocK url a.handle), Op.get (.rootK url),
           Op.set (.assocK url a.handle)
             (AssociationRecord.serialize ⟨lookupA url st.cache.roots, a⟩)
             none,
           Op.set (.rootK url) a.handle none] }) := by
  simp only [storeAssociation]
  rw [getAssociationRecord_missing url a.handle st hfresh]
  simp [mcGet, mcSet, cGet, cSet, popFail, hfails]

theorem runStores_inv (url : Str) :
    ∀ (l stored : List Association) (st : St),
    ((stored ++ l).map Association.handle).Nodup →
    st.cache.assocs = assocsOf url stored →
    st.cache.roots = rootsOf url stored →
    st.fails = [] →
    ∃ st', runStores url l st = .ok st' ∧
      st'.cache.assocs = assocsOf url (stored ++ l) ∧
      st'.cache.roots = rootsOf url (stored ++ l) ∧
      st'.fails = [] := by
  intro l
  induction l with
  | nil =>
    intro stored st _ hA hR hf
    exact ⟨st, rfl, by simpa using hA, by simpa using hR, hf⟩
  | cons a t ih =>
    intro stored st hnd hA hR hf
    have hnotin : a.handle ∉ stored.map Association.handle := by
      rw [List.map_append] at hnd
      rcases List.nodup_append.mp hnd with ⟨_, _, hdisj⟩
      intro hmem
      exact hdisj hmem (by simp)
    have hfresh : lookupA (url, a.handle) st.cache.assocs = none := by
      rw [hA]
      exact lookupA_assocsOf_none url stored a.handle hnotin
    have hstep := storeAssociation_fresh url a st hfresh hf
    have hfreshA : lookupA (url, a.handle) (assocsOf url stored) = none := by
      rw [← hA]
      exact hfresh
    have hA' : insertA (url, a.handle)
        (AssociationRecord.serialize ⟨lookupA url st.cache.roots, a⟩)
        st.cache.assocs = assocsOf url (stored ++ [a]) := by
      rw [hA, hR, lookupA_rootsOf,
        serialize_mk_pyShow (rootOf stored) a, assocsOf_append]
      unfold insertA
      rw [removeA_of_lookupA_none _ _ hfreshA]
    have hR' : insertA url a.handle st.cache.roots
        = rootsOf url (stored ++ [a]) := by
      rw [hR, insertA_rootsOf, rootsOf_append]
    have hnd' : (((stored ++ [a]) ++ t).map Association.handle).Nodup := by
      rw [← List.append_cons]
      exact hnd
    obtain ⟨st', h1, h2, h3, h4⟩ := ih (stored ++ [a])
      { cache :=
          { assocs := insertA (url, a.handle)
              (AssociationRecord.serialize ⟨lookupA url st.cache.roots, a⟩)
              st.cache.assocs,
            roots := insertA url a.handle st.cache.roots,
            nonces := st.cache.nonces,
            secret := st.cache.secret },
        fails := [],
        rands := st.rands,
        trace := st.trace ++
          [Op.get (.assocK url a.handle), Op.get (.rootK url),
           Op.set (.assocK url a.handle)
             (AssociationRecord.serialize ⟨lookupA url st.cache.roots, a⟩)
             none,
           Op.set (.rootK url) a.handle none] }
      hnd' hA' hR' rfl
    refine ⟨st', ?_, ?_, ?_, h4⟩
    · simp only [runStores]
      rw [hstep]
      exact h1
    · rw [h2, ← List.append_cons]
    · rw [h3, ← List.append_cons]

theorem linkUp_next (cs : List Association) :
    ∀ p ∈ linkUp cs, ∃ s, p.2.next = some s ∧
      (s ∈ cs.map Association.handle ∨ s = "None".data) := by
  induction cs with
  | nil => intro p hp; cases hp
  | cons a t ih =>
    intro p hp
    rcases List.mem_cons.mp hp with hp | hp
    · subst hp
      refine ⟨pyShow (t.head?.map Association.handle), rfl, ?_⟩
      cases ht : t.head? with
      | none => right; rfl
      | some b =>
        left
        have hbt : b ∈ t := by
          cases t with
          | nil => simp at ht
          | cons x t' =>
            simp only [List.head?_cons] at ht
            injection ht with hb
            rw [← hb]
            exact List.mem_cons_self x t'
        show pyShow (some b.handle) ∈ (a :: t).map Association.handle
        exact List.mem_map.mpr ⟨b, List.mem_cons_of_mem a hbt, rfl⟩
    · obtain ⟨s, hs1, hs2⟩ := ih p hp
      refine ⟨s, hs1, ?_⟩
      rcases hs2 with hs2 | hs2
      · left
        obtain ⟨b, hb, hbe⟩ := List.mem_map.mp hs2
        exact List.mem_map.mpr ⟨b, List.mem_cons_of_mem a hb, hbe⟩
      · right; exact hs2

theorem readRec_assocsOf (url : Str) (l : List Association) (c : Cache)
    (hA : c.assocs = assocsOf url l)
    (hnd : (l.map Association.handle).Nodup)
    (hwf : ∀ a ∈ l, a.handle ≠ [] ∧ '\n' ∉ a.handle ∧ a.handle ≠ "None".data) :
    ∀ p ∈ chainOf l, readRec c url p.1 = some p.2 := by
  intro p hp
  have hchf : ((chainOf l).map Prod.fst).Nodup := by
    rw [chainOf, linkUp_map_fst, List.map_reverse]
    exact List.nodup_reverse.mpr hnd
  have hkeys : ((assocsOf url l).map Prod.fst).Nodup := by
    have hrw : (assocsOf url l).map Prod.fst
        = ((chainOf l).map Prod.fst).map (fun h => (url, h)) := by
      unfold assocsOf
      rw [List.map_map, List.map_map]
      rfl
    rw [hrw]
    have hinj : Function.Injective
        (fun (h : Str) => ((url, h) : Str × Str)) := by
      intro x y hxy
      injection hxy with _ h2
    exact List.Nodup.map hinj hchf
  have hmem : ((url, p.1), AssociationRecord.serialize p.2)
      ∈ assocsOf url l := List.mem_map.mpr ⟨p, hp, rfl⟩
  have hlook : lookupA (url, p.1) c.assocs
      = some (AssociationRecord.serialize p.2) := by
    rw [hA]
    exact lookupA_of_mem_nodup hmem hkeys
  obtain ⟨s, hs, hsmem⟩ := linkUp_next l.reverse p (by rwa [chainOf] at hp)
  have hsnl : '\n' ∉ s := by
    rcases hsmem with hsmem | hsmem
    · rw [List.map_reverse, List.mem_reverse] at hsmem
      obtain ⟨a, ha, hae⟩ := List.mem_map.mp hsmem
      rw [← hae]
      exact (hwf a ha).2.1
    · rw [hsmem]
      decide
  have hpy : pyShow p.2.next = s := by rw [hs]; rfl
  unfold readRec
  rw [hlook]
  simp only [Option.some_bind]
  rw [AssociationRecord.deserialize_serialize_rec p.2 (by rw [hpy]; exact hsnl)]
  rw [hpy, ← hs]

theorem chainEnd_linkUp (next : Option Str) :
    ∀ (cs : List Association), cs ≠ [] →
    chainEnd next (linkUp cs) = some "None".data := by
  intro cs
  induction cs with
  | nil => intro h; exact absurd rfl h
  | cons a t ih =>
    intro _
    cases t with
    | nil => simp [linkUp, chainEnd, pyShow]
    | cons b t' =>
      show chainEnd next ((a.handle,
        ⟨some (pyShow (((b :: t').head?).map Association.handle)), a⟩)
          :: linkUp (b :: t')) = some "None".data
      rw [chainEnd_cons]
      exact ih (by simp)

theorem linkUp_seg (c : Cache) (url : Str) :
    ∀ (cs : List Association),
    (∀ p ∈ linkUp cs, readRec c url p.1 = some p.2) →
    (∀ a ∈ cs, a.handle ≠ []) →
    chainSeg c url (some (pyShow (cs.head?.map Association.handle)))
      (linkUp cs) (some "None".data) = true := by
  intro cs
  induction cs with
  | nil =>
    intro _ _
    simp [linkUp, chainSeg, pyShow]
  | cons a t ih =>
    intro hread hwf
    show chainSeg c url (some (pyShow (some a.handle)))
      ((a.handle, ⟨some (pyShow (t.head?.map Association.handle)), a⟩)
        :: linkUp t) (some "None".data) = true
    simp only [chainSeg, Bool.and_eq_true, decide_eq_true_eq]
    refine ⟨⟨⟨rfl, ?_⟩, ?_⟩, ?_⟩
    · have := hwf a (List.mem_cons_self a t)
      simpa [List.isEmpty_iff] using this
    · exact hread
        (a.handle, ⟨some (pyShow (t.head?.map Association.handle)), a⟩)
        (List.mem_cons_self _ _)
    · exact ih (fun p hp => hread p (List.mem_cons_of_mem _ hp))
        (fun b hb => hwf b (List.mem_cons_of_mem a hb))

theorem chainAt_canonical (url : Str) (l : List Association) (c : Cache)
    (hne : l ≠ [])
    (hA : c.assocs = assocsOf url l)
    (hnd : (l.map Association.handle).Nodup)
    (hwf : ∀ a ∈ l, a.handle ≠ [] ∧ '\n' ∉ a.handle ∧ a.handle ≠ "None".data)
    (hR : lookupA url c.roots = rootOf l) :
    chainAt c url (lookupA url c.roots) (chainOf l) = true := by
  have hrev : l.reverse ≠ [] := by simpa using hne
  have hread := readRec_assocsOf url l c hA hnd hwf
  have hseg := linkUp_seg c url l.reverse
    (fun p hp => hread p (by rwa [chainOf]))
    (fun a ha => (hwf a (List.mem_reverse.mp ha)).1)
  have hroot : lookupA url c.roots
      = some (pyShow ((l.reverse.head?).map Association.handle)) := by
    rw [hR]
    unfold rootOf chainOf
    rw [linkUp_head]
    cases hh : l.reverse.head? with
    | none => rw [List.head?_eq_none_iff] at hh; exact absurd hh hrev
    | some b => rfl
  have hend : chainEnd (lookupA url c.roots) (chainOf l)
      = some "None".data := by
    rw [chainOf]
    exact chainEnd_linkUp _ l.reverse hrev
  have hstop : chainStop c url (some "None".data) = true := by
    have hnone : lookupA (url, "None".data) c.assocs = none := by
      rw [hA]
      apply lookupA_assocsOf_none
      intro hmem
      obtain ⟨a, ha, hae⟩ := List.mem_map.mp hmem
      exact (hwf a ha).2.2 hae
    simp [chainStop, hnone]
  unfold chainAt
  rw [Bool.and_eq_true]
  constructor
  · rw [hend, hroot, chainOf]
    exact hseg
  · rw [hend]
    exact hstop

theorem chainOf_length (l : List Association) :
    (chainOf l).length = l.length := by
  rw [chainOf, linkUp_length, List.length_reverse]

theorem chainOf_ne_nil (l : List Association) (h : l ≠ []) :
    chainOf l ≠ [] := by
  intro hc
  apply h
  have := chainOf_length l
  rw [hc] at this
  simpa using (List.length_eq_zero.mp this.symm)

/-- C1: after any sequence of fresh stores of associations with distinct
(printable, non-empty, non-`"None"`) handles starting from the empty
cache, the no-handle lookup scan succeeds and returns a stored payload
whose expiry is maximal among all stored (hence root-reachable)
payloads. -/
theorem c1_lookupBest_returns_max_expiry (url : Str) (l : List Association)
    (hne : l ≠ [])
    (hnd : (l.map Association.handle).Nodup)
    (hwf : ∀ a ∈ l, a.handle ≠ [] ∧ '\n' ∉ a.handle ∧
      a.handle ≠ "None".data) :
    ∃ st st' r, runStores url l emptySt = .ok st ∧
      scanAssociationRecords (l.length + 1) url st = some (some r, st') ∧
      r.assoc ∈ l ∧
      ∀ a ∈ l, a.getExpiresIn ≤ r.assoc.getExpiresIn := by
  obtain ⟨st, hrun, hA, hR, hf⟩ :=
    runStores_inv url l [] emptySt (by simpa using hnd) rfl rfl rfl
  rw [List.nil_append] at hA hR
  have hRlook : lookupA url st.cache.roots = rootOf l := by
    rw [hR, lookupA_rootsOf]
  have hchain := chainAt_canonical url l st.cache hne hA hnd hwf hRlook
  have hrc : rootChain st url (chainOf l) = true := hchain
  have hlen : (chainOf l).length < l.length + 1 := by
    rw [chainOf_length]
    omega
  obtain ⟨st', hscan, _, _, _⟩ :=
    scan_of_chain url st (chainOf l) (l.length + 1) hrc hlen
  obtain ⟨q, hq⟩ : ∃ q, bestF none (chainOf l) = some q :=
    Option.isSome_iff_exists.mp
      (bestF_isSome (chainOf l) none (Or.inl (chainOf_ne_nil l hne)))
  rcases bestF_split (chainOf l) none q hq with
    ⟨pre, p, post, hsp, hqv, _⟩ | ⟨hcon, _⟩
  · have hpmem : p ∈ chainOf l := by rw [hsp]; simp
    have hassoc : p.2.assoc ∈ l := by
      have : p.2.assoc ∈ (chainOf l).map (fun p => p.2.assoc) :=
        List.mem_map.mpr ⟨p, hpmem, rfl⟩
      rw [chainOf, linkUp_map_assoc, List.mem_reverse] at this
      exact this
    refine ⟨st, st', q.2, hrun, ?_, ?_, ?_⟩
    · rw [hscan, hq]
      rfl
    · rw [hqv]
      exact hassoc
    · intro a ha
      obtain ⟨hle, _⟩ := bestF_le (chainOf l) none q hq
      have : a ∈ (chainOf l).map (fun p => p.2.assoc) := by
        rw [chainOf, linkUp_map_assoc, List.mem_reverse]
        exact ha
      obtain ⟨p', hp', hpe⟩ := List.mem_map.mp this
      have h1 := hle p' hp'
      rw [hpe] at h1
      have hq1 : q.1 = q.2.assoc.getExpiresIn := by
        rw [hqv]
      rw [hq1] at h1
      exact h1
  · cases hcon

/-- C1 witness: the spec's concrete scenario — store `h1` with expiry
100, then `h2` with expiry 50, and scan. -/
theorem c1_witness :
    (([⟨"h1".data, "s".data, 100⟩, ⟨"h2".data, "s".data, 50⟩]
        : List Association) ≠ [] ∧
     (([⟨"h1".data, "s".data, 100⟩, ⟨"h2".data, "s".data, 50⟩]
        : List Association).map Association.handle).Nodup ∧
     (∀ a ∈ ([⟨"h1".data, "s".data, 100⟩, ⟨"h2".data, "s".data, 50⟩]
        : List Association), a.handle ≠ [] ∧ '\n' ∉ a.handle ∧
        a.handle ≠ "None".data)) ∧
    (∃ st st' r, runStores "https://example.org".data
        [⟨"h1".data, "s".data, 100⟩, ⟨"h2".data, "s".data, 50⟩]
        emptySt = .ok st ∧
      scanAssociationRecords 3 "https://example.org".data st
        = some (some r, st') ∧
      r.assoc ∈ ([⟨"h1".data, "s".data, 100⟩, ⟨"h2".data, "s".data, 50⟩]
        : List Association) ∧
      ∀ a ∈ ([⟨"h1".data, "s".data, 100⟩, ⟨"h2".data, "s".data, 50⟩]
        : List Association), a.getExpiresIn ≤ r.assoc.getExpiresIn) :=
  ⟨⟨by decide, by decide, by decide⟩,
    c1_lookupBest_returns_max_expiry "https://example.org".data
      [⟨"h1".data, "s".data, 100⟩, ⟨"h2".data, "s".data, 50⟩]
      (by decide) (by decide) (by decide)⟩

/-! ### Tie-breaking and termination -/

/-- A two-record chain with equal expiries, used to exercise the scan's
tie handling: the root points at `h2`, `h2` links to `h1`, both expire
at 7. -/
def aT1 : Association := ⟨"h1".data, "s1".data, 7⟩

def aT2 : Association := ⟨"h2".data, "s2".data, 7⟩

def stTie : St :=
  ⟨⟨[(("u".data, "h2".data),
        AssociationRecord.serialize ⟨some "h1".data, aT2⟩),
     (("u".data, "h1".data),
        AssociationRecord.serialize ⟨some "None".data, aT1⟩)],
    [("u".data, "h2".data)], [], none⟩, [], [], []⟩

def hsTie : List (Str × AssociationRecord) :=
  [("h2".data, ⟨some "h1".data, aT2⟩),
   ("h1".data, ⟨some "None".data, aT1⟩)]

/-- C5 (amended): on any root-reachable chain, the scan returns the
record at a position such that every later (farther-from-head) record
has a strictly smaller expiry and no record anywhere has a larger one:
on equal expiry the record encountered later replaces the earlier one
(the source compares with `best[0] <= expires`). -/
theorem c5_scan_keeps_last_maximum (url : Str) (st : St)
    (hs : List (Str × AssociationRecord)) (fuel : Nat)
    (hchain : rootChain st url hs = true)
    (hfuel : hs.length < fuel) (hne : hs ≠ []) :
    ∃ st' pre p post,
      scanAssociationRecords fuel url st = some (some p.2, st') ∧
      hs = pre ++ p :: post ∧
      (∀ p' ∈ hs, p'.2.assoc.getExpiresIn ≤ p.2.assoc.getExpiresIn) ∧
      (∀ p' ∈ post, p'.2.assoc.getExpiresIn < p.2.assoc.getExpiresIn) := by
  obtain ⟨st', hscan, _, _, _⟩ := scan_of_chain url st hs fuel hchain hfuel
  obtain ⟨q, hq⟩ : ∃ q, bestF none hs = some q :=
    Option.isSome_iff_exists.mp (bestF_isSome hs none (Or.inl hne))
  rcases bestF_split hs none q hq with
    ⟨pre, p, post, hsp, hqv, hpost⟩ | ⟨hcon, _⟩
  · obtain ⟨hle, _⟩ := bestF_le hs none q hq
    refine ⟨st', pre, p, post, ?_, hsp, ?_, ?_⟩
    · rw [hscan, hq, hqv]
      rfl
    · intro p' hp'
      have := hle p' hp'
      rw [hqv] at this
      exact this
    · intro p' hp'
      have := hpost p' hp'
      rw [hqv] at this
      exact this
  · cases hcon

/-- C5 witness: the equal-expiry two-record chain, instantiating the
amended tie-break theorem. -/
theorem c5_witness :
    (rootChain stTie "u".data hsTie = true ∧ hsTie.length < 3 ∧
      hsTie ≠ []) ∧
    (∃ st' pre p post,
      scanAssociationRecords 3 "u".data stTie = some (some p.2, st') ∧
      hsTie = pre ++ p :: post ∧
      (∀ p' ∈ hsTie, p'.2.assoc.getExpiresIn ≤ p.2.assoc.getExpiresIn) ∧
      (∀ p' ∈ post, p'.2.assoc.getExpiresIn < p.2.assoc.getExpiresIn)) :=
  ⟨⟨by decide, by decide, by decide⟩,
    c5_scan_keeps_last_maximum "u".data stTie hsTie 3
      (by decide) (by decide) (by decide)⟩

/-- C5 counterexample: with equal expiries the scan does NOT keep the
record found first (closer to the head): the root points at `h2`, yet
the returned payload is `h1`'s, the record found last. -/
theorem c5_counterexample :
    lookupA "u".data stTie.cache.roots = some "h2".data ∧
    aT1.getExpiresIn = aT2.getExpiresIn ∧
    (scanAssociationRecords 3 "u".data stTie).map (fun p => p.1)
      = some (some ⟨some "None".data, aT1⟩) ∧
    (⟨some "None".data, aT1⟩ : AssociationRecord).assoc ≠ aT2 := by
  refine ⟨by decide, by decide, by decide, by decide⟩

theorem getAssociationRecord_fst (url h : Str) (st : St) :
    (getAssociationRecord url h st).1 = readRec st.cache url h := by
  cases hl : lookupA (url, h) st.cache.assocs with
  | none =>
    simp only [getAssociationRecord, mcGet, cGet, readRec]
    rw [hl]
    simp
  | some bytes =>
    cases hd : AssociationRecord.deserialize bytes with
    | none =>
      simp only [getAssociationRecord, mcGet, cGet, readRec]
      rw [hl]
      simp [hd]
    | some r =>
      simp only [getAssociationRecord, mcGet, cGet, readRec]
      rw [hl]
      simp [hd]

theorem removeLoop_total (url h : Str) :
    ∀ (hs : List (Str × AssociationRecord)) (next fin : Option Str)
      (ptr : Option AssociationRecord) (st : St) (fuel : Nat),
    chainSeg st.cache url next hs fin = true →
    chainStop st.cache url fin = true →
    hs.length < fuel →
    (removeLoop url h fuel next ptr st).isSome = true := by
  intro hs
  induction hs with
  | nil =>
    intro next fin ptr st fuel hseg hstop hlen
    simp only [chainSeg, decide_eq_true_eq] at hseg
    subst hseg
    obtain ⟨m, rfl⟩ : ∃ m, fuel = m + 1 := ⟨fuel - 1, by omega⟩
    cases next with
    | none => simp [removeLoop]
    | some s =>
      simp only [chainStop] at hstop
      by_cases hcond : (s.isEmpty || s = h : Bool) = true
      · simp [removeLoop, hcond]
      · have hse : s.isEmpty = false := by
          cases hb : s.isEmpty
          · rfl
          · exact absurd (by rw [hb]; simp) hcond
        have hl : lookupA (url, s) st.cache.assocs = none := by
          rcases (Bool.or_eq_true _ _).mp hstop with hc | hc
          · rw [hse] at hc; cases hc
          · exact of_decide_eq_true hc
        have hga := getAssociationRecord_missing url s st hl
        simp [removeLoop, hcond, hga]
  | cons q t ih =>
    intro next fin ptr st fuel hseg hstop hlen
    obtain ⟨h0, r0⟩ := q
    simp only [chainSeg, Bool.and_eq_true, decide_eq_true_eq] at hseg
    obtain ⟨⟨⟨hnext, hne⟩, hrec⟩, hseg'⟩ := hseg
    subst hnext
    obtain ⟨m, rfl⟩ : ∃ m, fuel = m + 1 := ⟨fuel - 1, by omega⟩
    by_cases hcond : (h0.isEmpty || h0 = h : Bool) = true
    · simp [removeLoop, hcond]
    · have hga := getAssociationRecord_some url h0 st r0 hrec
      have hlen' : t.length < m := by
        simp only [List.length_cons] at hlen
        omega
      have := ih r0.next fin (some r0)
        { st with trace := st.trace ++ [Op.get (.assocK url h0)] } m
        hseg' hstop hlen'
      simp only [removeLoop, hcond, Bool.false_eq_true, if_false, hga]
      exact this

theorem isSome_relink_result (b : Bool × St) (url h : Str) :
    (if b.1 then
        (let d := mcDelete (.assocK url h) b.2
         if d.1 then some (Except.ok (true, d.2))
         else some (Except.error "MemCached error deleting association"))
      else (some (Except.error "Error setting memcache key")
        : Option (Except String (Bool × St)))).isSome = true := by
  by_cases hb : b.1 = true
  · simp only [hb, if_true]
    by_cases hd : (mcDelete (.assocK url h) b.2).1 = true
    · simp [hd]
    · simp only [Bool.not_eq_true] at hd
      simp [hd]
  · simp only [Bool.not_eq_true] at hb
    simp [hb]

/-- C10 (amended): on every cache state whose root-reachable chain is an
actual finite list (every state reachable without eviction is such), the
walks terminate: the scan finishes within chain-length-plus-one steps,
and the predecessor search of a removal finishes likewise, for any
target handle. -/
theorem c10_walks_terminate_on_list_states (url : Str) (st : St)
    (hs : List (Str × AssociationRecord))
    (hchain : rootChain st url hs = true) :
    (scanAssociationRecords (hs.length + 1) url st).isSome = true ∧
    ∀ h, (removeAssociation (hs.length + 1) url h st).isSome = true := by
  constructor
  · obtain ⟨st', hscan, _, _, _⟩ :=
      scan_of_chain url st hs (hs.length + 1) hchain (by omega)
    rw [hscan]
    rfl
  · intro h
    unfold rootChain chainAt at hchain
    obtain ⟨hseg, hstop⟩ := Bool.and_eq_true_iff.mp hchain
    cases hro : readRec st.cache url h with
    | none =>
      have h1 : (getAssociationRecord url h st).1 = none := by
        rw [getAssociationRecord_fst, hro]
      simp only [removeAssociation]
      rw [h1]
      rfl
    | some rec0 =>
      have hga := getAssociationRecord_some url h st rec0 hro
      have hwalk := removeLoop_total url h hs
        (lookupA url st.cache.roots)
        (chainEnd (lookupA url st.cache.roots) hs) none
        { st with trace := st.trace ++ [Op.get (.assocK url h),
            Op.get (.rootK url)] }
        (hs.length + 1) hseg hstop (by omega)
      obtain ⟨res, hres⟩ := Option.isSome_iff_exists.mp hwalk
      obtain ⟨⟨nextH, ptr⟩, st3⟩ := res
      simp only [removeAssociation, hga, mcGet, cGet, List.append_assoc,
        List.cons_append, List.nil_append]
      rw [hres]
      exact isSome_relink_result _ url h

/-- C10 witness: the two-record chain state, instantiating the amended
termination theorem. -/
theorem c10_witness :
    (rootChain stTie "u".data hsTie = true) ∧
    ((scanAssociationRecords (hsTie.length + 1) "u".data stTie).isSome
        = true ∧
      ∀ h, (removeAssociation (hsTie.length + 1) "u".data h stTie).isSome
        = true) :=
  ⟨by decide,
    c10_walks_terminate_on_list_states "u".data stTie hsTie (by decide)⟩

/-- The scan loop can run forever: termination of `LookupBest` as a
proposition. -/
def ScanTerminates (url : Str) (st : St) : Prop :=
  ∃ fuel, (scanAssociationRecords fuel url st).isSome = true

theorem scanLoop_selfloop (url h : Str) (bytes : Str)
    (r : AssociationRecord)
    (hdes : AssociationRecord.deserialize bytes = some r)
    (hnext : r.next = some h) (hne : h.isEmpty = false) :
    ∀ (fuel : Nat) (b : Option (Nat × AssociationRecord)) (st : St),
    lookupA (url, h) st.cache.assocs = some bytes →
    scanLoop url fuel (some h) b st = none := by
  intro fuel
  induction fuel with
  | zero => intro b st _; rfl
  | succ m ih =>
    intro b st hl
    have hread : readRec st.cache url h = some r := by
      unfold readRec
      rw [hl]
      simp [hdes]
    have hga := getAssociationRecord_some url h st r hread
    simp only [scanLoop, hne, Bool.false_eq_true, if_false, hga]
    rw [hnext]
    exact ih _ _ hl

/-- The server identifier of the cyclic-state counterexample. -/
def uC : Str := "u".data

/-- The association whose store creates the self-loop. -/
def aC : Association := ⟨"h".data, "s".data, 3⟩

/-- A cache state in which the root pointer survives but the record it
names was evicted — an encounterable state, since any entry can be
evicted at any time. -/
def rootOnlySt : St := ⟨⟨[], [("u".data, "h".data)], [], none⟩, [], [], []⟩

/-- The state produced by storing `aC` on `rootOnlySt`: the fresh-handle
branch reads the surviving root pointer `"h"` into the new record's
`next`, making the record point at itself. -/
def cycSt : St :=
  match storeAssociation uC aC rootOnlySt with
  | .ok p => p.2
  | .error _ => emptySt

/-- C10 counterexample: a `Store` on an encounterable state (root
pointer survives, record evicted) succeeds and writes a record whose
`next` is its own handle; on the resulting state the scan loop of
`LookupBest` never terminates, whatever fuel it is given. -/
theorem c10_counterexample :
    storeAssociation uC aC rootOnlySt = .ok ((), cycSt) ∧
    readRec cycSt.cache uC "h".data
      = some ⟨some "h".data, aC⟩ ∧
    lookupA uC cycSt.cache.roots = some "h".data ∧
    ¬ ScanTerminates uC cycSt := by
  refine ⟨rfl, by decide, by decide, ?_⟩
  rintro ⟨fuel, hsome⟩
  have hdes : AssociationRecord.deserialize
      (AssociationRecord.serialize ⟨some "h".data, aC⟩)
      = some ⟨some "h".data, aC⟩ := by decide
  have hnone : scanAssociationRecords fuel uC cycSt = none := by
    simp only [scanAssociationRecords]
    have hroot : (mcGet (.rootK uC) cycSt).1 = some "h".data := by decide
    rw [hroot]
    apply scanLoop_selfloop uC "h".data
      (AssociationRecord.serialize ⟨some "h".data, aC⟩)
      ⟨some "h".data, aC⟩ hdes rfl (by decide)
    decide
  rw [hnone] at hsome
  cases hsome

/-! ### Write order, write kinds and write-failure handling -/

/-- The keys of the `set` operations of a trace, in order. -/
def setKeys (tr : List Op) : List MKey :=
  tr.filterMap (fun o => match o with
    | .set k _ _ => some k
    | _ => none)

/-- The ordering property C3 asserts of a fresh store: the root-pointer
write comes no later than the record write. -/
def rootSetNotAfterRecSet (tr : List Op) (url h : Str) : Bool :=
  (setKeys tr).indexOf (MKey.rootK url)
    ≤ (setKeys tr).indexOf (MKey.assocK url h)

/-- Whether every write operation of a trace is a create-if-absent write
(the cache contract's `setIfAbsent`), as C4 asserts of the secret
provisioner. -/
def writesAreCreateIfAbsent (tr : List Op) : Bool :=
  tr.all (fun o => match o with
    | .set _ _ _ => false
    | _ => true)

/-- Whether a removal result is a surfaced fatal error. -/
def isErrorResult : Option (Except String (Bool × St)) → Bool
  | some (.error _) => true
  | _ => false

/-- The association stored in the write-order and `None`-tail
counterexamples. -/
def aF : Association := ⟨"h1".data, "s".data, 5⟩

/-- C3 counterexample: a fresh store issues its two writes as
record first, root pointer second — the actual set sequence is
`[assoc key, root key]`, so the root write comes strictly after the
record write, contradicting the claimed order. -/
theorem c3_counterexample :
    (match storeAssociation "u".data aF emptySt with
     | .ok p => some (setKeys p.2.trace)
     | .error _ => none)
      = some [MKey.assocK "u".data "h1".data, MKey.rootK "u".data] ∧
    (match storeAssociation "u".data aF emptySt with
     | .ok p => rootSetNotAfterRecSet p.2.trace "u".data "h1".data
     | .error _ => true) = false := by
  exact ⟨by decide, by decide⟩

/-- C3 (amended): on a fresh handle (and no injected write failures) the
store performs exactly the sequence read-record, read-root, write-record,
write-root: the record write is issued, and must succeed, before the
root-pointer write is issued. -/
theorem c3_record_write_precedes_root_write (url : Str) (a : Association)
    (st : St)
    (hfresh : lookupA (url, a.handle) st.cache.assocs = none)
    (hfails : st.fails = []) :
    ∃ st', storeAssociation url a st = .ok ((), st') ∧
      st'.trace = st.trace ++
        [Op.get (.assocK url a.handle), Op.get (.rootK url),
         Op.set (.assocK url a.handle)
           (AssociationRecord.serialize ⟨lookupA url st.cache.roots, a⟩)
           none,
         Op.set (.rootK url) a.handle none] :=
  ⟨_, storeAssociation_fresh url a st hfresh hfails, rfl⟩

/-- C3 witness: the amended order statement at a concrete fresh store. -/
theorem c3_witness :
    (lookupA ("u".data, aF.handle) emptySt.cache.assocs = none ∧
      emptySt.fails = []) ∧
    (∃ st', storeAssociation "u".data aF emptySt = .ok ((), st') ∧
      st'.trace = emptySt.trace ++
        [Op.get (.assocK "u".data aF.handle), Op.get (.rootK "u".data),
         Op.set (.assocK "u".data aF.handle)
           (AssociationRecord.serialize
             ⟨lookupA "u".data emptySt.cache.roots, aF⟩) none,
         Op.set (.rootK "u".data) aF.handle none]) :=
  ⟨⟨by decide, by decide⟩,
    c3_record_write_precedes_root_write "u".data aF emptySt
      (by decide) (by decide)⟩

/-- C4 counterexample: with the secret absent, `getAuthKey` issues a
plain unconditional `set` — not the cache contract's create-if-absent
`setIfAbsent` — for the generated secret. -/
theorem c4_counterexample :
    (match getAuthKey none ⟨⟨[], [], [], none⟩, [], ["k".data], []⟩ with
     | .ok p => some (p.1, p.2.trace)
     | .error _ => none)
      = some ("k".data, [Op.get .authK, Op.set .authK "k".data none]) ∧
    writesAreCreateIfAbsent [Op.get .authK, Op.set .authK "k".data none]
      = false := by
  exact ⟨by decide, by decide⟩

/-- C4 (amended): the provisioner's generated-secret write is an
unconditional `set`; a successful write returns the new value, a failed
write loops back to the read, the loop makes at most 3 attempts (two
injected failures still succeed on the third try), and three failures
raise the fatal `RuntimeError('memcache looped!')`. -/
theorem c4_bounded_unconditional_set_retry (r : Str) :
    getAuthKey none ⟨⟨[], [], [], none⟩, [], [r, r, r], []⟩
      = .ok (r, ⟨⟨[], [], [], some r⟩, [], [r, r],
          [Op.get .authK, Op.set .authK r none]⟩) ∧
    writesAreCreateIfAbsent [Op.get .authK, Op.set .authK r none]
      = false ∧
    getAuthKey none ⟨⟨[], [], [], none⟩, [false, false], [r, r, r], []⟩
      = .ok (r, ⟨⟨[], [], [], some r⟩, [], [],
          [Op.get .authK, Op.set .authK r none, Op.get .authK,
           Op.set .authK r none, Op.get .authK, Op.set .authK r none]⟩) ∧
    getAuthKey none
        ⟨⟨[], [], [], none⟩, [false, false, false], [r, r, r], []⟩
      = .error "memcache looped!" :=
  ⟨rfl, rfl, rfl, rfl⟩

/-- C6: evaluating the store at the failing input — the first store for
a server with no root pointer — shows the record is written with the
four-character next-handle `"None"` (Python's `str(None)`), not the
empty tail marker the record initializer and the spec use. -/
theorem c6_first_record_next_is_None_string :
    (match storeAssociation "u".data aF emptySt with
     | .ok p => some (readRec p.2.cache "u".data "h1".data)
     | .error _ => none)
      = some (some ⟨some "None".data, aF⟩) ∧
    "None".data ≠ ([] : Str) := by
  exact ⟨by decide, by decide⟩

/-- C7: evaluating the key encoder — the association key is 57 bytes
longer than the caller's prefix (1 tag byte plus 56 base64 characters of
two concatenated 20-byte digests), the root key 29, and the nonce key
grows with the nonce, against the documented 21-byte budget. -/
theorem c7_key_lengths_exceed_budget :
    (assocKeyOf [] "https://example.org".data "h1".data).length = 57 ∧
    (rootKeyOf [] "https://example.org".data).length = 29 ∧
    (∀ pfx url handle,
      (assocKeyOf pfx url handle).length = pfx.length + 57) ∧
    (∀ pfx nonce,
      (nonceKeyOf pfx nonce).length = pfx.length + 1 + nonce.length) ∧
    ¬ 57 ≤ 21 := by
  refine ⟨?_, ?_, assocKeyOf_length, nonceKeyOf_length, by decide⟩
  · have := assocKeyOf_length [] "https://example.org".data "h1".data
    simpa using this
  · have := rootKeyOf_length [] "https://example.org".data
    simpa using this

/-- A write-failure variant of the two-record chain: the first injected
outcome makes exactly one cache write fail. -/
def stTieFail : St := ⟨stTie.cache, [false], [], []⟩

/-- A variant in which the relink write succeeds and the final delete
fails. -/
def stTieFail2 : St := ⟨stTie.cache, [true, false], [], []⟩

/-- C8 (amended): `removeAssociation` surfaces a failed relink write and
a failed final delete as fatal errors, but `storeNonce` discards the
result of its cache set: a failed nonce write completes silently and
leaves the nonce absent. -/
theorem c8_write_failure_handling :
    isErrorResult (removeAssociation 5 "u".data "h1".data stTieFail)
      = true ∧
    isErrorResult (removeAssociation 5 "u".data "h1".data stTieFail2)
      = true ∧
    ∀ n : Str, storeNonce n ⟨⟨[], [], [], none⟩, [false], [], []⟩
      = ((), ⟨⟨[], [], [], none⟩, [], [],
          [Op.set (.nonceK n) [] (some 21600)]⟩) :=
  ⟨by decide, by decide, fun n => rfl⟩

/-- C8 counterexample: nonce registration silently downgrades a failed
write to a no-op — the set is attempted and fails, yet the call
completes normally and the nonce is simply absent. -/
theorem c8_counterexample :
    (storeNonce "n1".data ⟨⟨[], [], [], none⟩, [false], [], []⟩).2.cache
      = ⟨[], [], [], none⟩ ∧
    (storeNonce "n1".data ⟨⟨[], [], [], none⟩, [false], [], []⟩).2.trace
      = [Op.set (.nonceK "n1".data) [] (some 21600)] := by
  exact ⟨by decide, by decide⟩

/-- C9: serializing an association record whose next-handle contains no
newline and parsing the result yields the original next-handle and the
original payload. -/
theorem c9_record_roundtrip (nx : Str) (a : Association)
    (h : '\n' ∉ nx) :
    AssociationRecord.deserialize
      (AssociationRecord.serialize ⟨some nx, a⟩) = some ⟨some nx, a⟩ :=
  AssociationRecord.deserialize_serialize_rec ⟨some nx, a⟩ h

/-- C9 witness: the round trip at a concrete record. -/
theorem c9_witness :
    ('\n' ∉ "h2".data) ∧
    AssociationRecord.deserialize
      (AssociationRecord.serialize ⟨some "h2".data, aT1⟩)
      = some ⟨some "h2".data, aT1⟩ :=
  ⟨by decide, c9_record_roundtrip "h2".data aT1 (by decide)⟩

/-! ### Removal -/

/-- The value of `ptr_rec` after the predecessor search walks a prefix:
the record last read, or the initial value when nothing was read. -/
def ptrEnd (ptr : Option AssociationRecord)
    (pre : List (Str × AssociationRecord)) : Option AssociationRecord :=
  match pre.getLast? with
  | none => ptr
  | some p => some p.2

theorem ptrEnd_cons (ptr : Option AssociationRecord) (h0 : Str)
    (r0 : AssociationRecord) (t : List (Str × AssociationRecord)) :
    ptrEnd ptr ((h0, r0) :: t) = ptrEnd (some r0) t := by
  cases t with
  | nil => simp [ptrEnd]
  | cons q t' =>
    simp only [ptrEnd, List.getLast?_cons_cons]
    rcases hq : (q :: t').getLast? with _ | p
    · simp at hq
    · rfl

theorem removeLoop_walk (url h : Str) :
    ∀ (pre : List (Str × AssociationRecord)) (next : Option Str)
      (ptr : Option AssociationRecord) (st : St) (fuel : Nat),
    chainSeg st.cache url next pre (some h) = true →
    h ∉ pre.map Prod.fst →
    pre.length < fuel →
    ∃ st', removeLoop url h fuel next ptr st
        = some ((some h, ptrEnd ptr pre), st') ∧
      st'.cache = st.cache ∧ st'.fails = st.fails ∧
      st'.rands = st.rands := by
  intro pre
  induction pre with
  | nil =>
    intro next ptr st fuel hseg _ hlen
    simp only [chainSeg, decide_eq_true_eq] at hseg
    subst hseg
    obtain ⟨m, rfl⟩ : ∃ m, fuel = m + 1 := ⟨fuel - 1, by omega⟩
    refine ⟨st, ?_, rfl, rfl, rfl⟩
    simp [removeLoop, ptrEnd]
  | cons q t ih =>
    intro next ptr st fuel hseg hnotin hlen
    obtain ⟨h0, r0⟩ := q
    simp only [chainSeg, Bool.and_eq_true, decide_eq_true_eq] at hseg
    obtain ⟨⟨⟨hnext, hne0⟩, hrec0⟩, hseg'⟩ := hseg
    subst hnext
    obtain ⟨m, rfl⟩ : ∃ m, fuel = m + 1 := ⟨fuel - 1, by omega⟩
    have hne0' : h0.isEmpty = false := by simpa using hne0
    have hh0 : h0 ≠ h := by
      intro hc
      apply hnotin
      rw [← hc, List.map_cons]
      exact List.mem_cons_self _ _
    have hcond : (h0.isEmpty || decide (h0 = h)) = false := by
      simp [hne0', hh0]
    have hga := getAssociationRecord_some url h0 st r0 hrec0
    have hnotin' : h ∉ t.map Prod.fst := by
      intro hm
      apply hnotin
      rw [List.map_cons]
      exact List.mem_cons_of_mem _ hm
    have hlen' : t.length < m := by
      simp only [List.length_cons] at hlen
      omega
    obtain ⟨st', heq, hc, hf, hr2⟩ := ih r0.next (some r0)
      { st with trace := st.trace ++ [Op.get (.assocK url h0)] } m
      hseg' hnotin' hlen'
    refine ⟨st', ?_, hc, hf, hr2⟩
    rw [ptrEnd_cons]
    simp only [removeLoop, hcond, Bool.false_eq_true, if_false, hga]
    exact heq

theorem removeAssociation_run_head (url h : Str) (st : St)
    (r : AssociationRecord) (fuel : Nat)
    (hrec : readRec st.cache url h = some r)
    (hroot : lookupA url st.cache.roots = some h)
    (hne : h.isEmpty = false)
    (hfails : st.fails = [])
    (hfuel : 0 < fuel) :
    ∃ st', removeAssociation fuel url h st = some (.ok (true, st')) ∧
      st'.cache = ⟨removeA (url, h) st.cache.assocs,
        insertA url (pyShow r.next) st.cache.roots,
        st.cache.nonces, st.cache.secret⟩ ∧
      st'.fails = [] ∧ st'.rands = st.rands := by
  have hga := getAssociationRecord_some url h st r hrec
  obtain ⟨st3, heq3, hc3, hf3, hr3⟩ := removeLoop_walk url h [] (some h)
    none
    { st with trace := st.trace ++
        [Op.get (.assocK url h), Op.get (.rootK url)] }
    fuel (by simp [chainSeg]) (by simp) (by simpa using hfuel)
  rw [show ptrEnd (none : Option AssociationRecord) [] = none from rfl]
    at heq3
  have hf3' : st3.fails = [] := by rw [hf3]; exact hfails
  have hset : mcSet (.rootK url) (pyShow r.next) none st3
      = (true, { st3 with
          cache := cSet (.rootK url) (pyShow r.next) st3.cache,
          fails := [],
          trace := st3.trace ++
            [Op.set (.rootK url) (pyShow r.next) none] }) := by
    simp [mcSet, hf3', popFail]
  have hdel : mcDelete (.assocK url h)
      ({ st3 with
          cache := cSet (.rootK url) (pyShow r.next) st3.cache,
          fails := [],
          trace := st3.trace ++
            [Op.set (.rootK url) (pyShow r.next) none] } : St)
      = (true, { st3 with
          cache := cDel (.assocK url h)
            (cSet (.rootK url) (pyShow r.next) st3.cache),
          fails := [],
          trace := st3.trace ++
            [Op.set (.rootK url) (pyShow r.next) none,
             Op.del (.assocK url h)] }) := by
    simp [mcDelete, popFail]
  refine ⟨{ st3 with
      cache := cDel (.assocK url h)
        (cSet (.rootK url) (pyShow r.next) st3.cache),
      fails := [],
      trace := st3.trace ++
        [Op.set (.rootK url) (pyShow r.next) none,
         Op.del (.assocK url h)] }, ?_, ?_, rfl, hr3⟩
  · simp only [removeAssociation, hga, mcGet, cGet, List.append_assoc,
      List.cons_append, List.nil_append]
    rw [hroot, heq3]
    simp only [truthy, hne, Bool.not_false, if_true, and_self, if_pos]
    rw [hset]
    simp only [if_true]
    rw [hdel]
    simp only [if_true]
  · simp [cSet, cDel, hc3]

theorem removeAssociation_run_interior (url h p : Str) (st : St)
    (r rp : AssociationRecord)
    (lpre : List (Str × AssociationRecord)) (fuel : Nat)
    (hrec : readRec st.cache url h = some r)
    (hseg : chainSeg st.cache url (lookupA url st.cache.roots)
      (lpre ++ [(p, rp)]) (some h) = true)
    (hnotin : h ∉ (lpre ++ [(p, rp)]).map Prod.fst)
    (hph : rp.assoc.handle = p)
    (hne : h.isEmpty = false)
    (hfails : st.fails = [])
    (hfuel : (lpre ++ [(p, rp)]).length < fuel) :
    ∃ st', removeAssociation fuel url h st = some (.ok (true, st')) ∧
      st'.cache = ⟨removeA (url, h)
          (insertA (url, p)
            (AssociationRecord.serialize ⟨r.next, rp.assoc⟩)
            st.cache.assocs),
        st.cache.roots, st.cache.nonces, st.cache.secret⟩ ∧
      st'.fails = [] ∧ st'.rands = st.rands := by
  subst hph
  have hga := getAssociationRecord_some url h st r hrec
  obtain ⟨st3, heq3, hc3, hf3, hr3⟩ := removeLoop_walk url h
    (lpre ++ [(rp.assoc.handle, rp)]) (lookupA url st.cache.roots) none
    { st with trace := st.trace ++
        [Op.get (.assocK url h), Op.get (.rootK url)] }
    fuel hseg hnotin hfuel
  rw [show ptrEnd (none : Option AssociationRecord)
      (lpre ++ [(rp.assoc.handle, rp)]) = some rp by
    simp [ptrEnd, List.getLast?_concat]] at heq3
  have hf3' : st3.fails = [] := by rw [hf3]; exact hfails
  have hset : mcSet (.assocK url rp.assoc.handle)
      (AssociationRecord.serialize ⟨r.next, rp.assoc⟩) none st3
      = (true, { st3 with
          cache := cSet (.assocK url rp.assoc.handle)
            (AssociationRecord.serialize ⟨r.next, rp.assoc⟩) st3.cache,
          fails := [],
          trace := st3.trace ++
            [Op.set (.assocK url rp.assoc.handle)
              (AssociationRecord.serialize ⟨r.next, rp.assoc⟩) none] }) := by
    simp [mcSet, hf3', popFail]
  have hdel : mcDelete (.assocK url h)
      ({ st3 with
          cache := cSet (.assocK url rp.assoc.handle)
            (AssociationRecord.serialize ⟨r.next, rp.assoc⟩) st3.cache,
          fails := [],
          trace := st3.trace ++
            [Op.set (.assocK url rp.assoc.handle)
              (AssociationRecord.serialize ⟨r.next, rp.assoc⟩) none] } : St)
      = (true, { st3 with
          cache := cDel (.assocK url h)
            (cSet (.assocK url rp.assoc.handle)
              (AssociationRecord.serialize ⟨r.next, rp.assoc⟩) st3.cache),
          fails := [],
          trace := st3.trace ++
            [Op.set (.assocK url rp.assoc.handle)
              (AssociationRecord.serialize ⟨r.next, rp.assoc⟩) none,
             Op.del (.assocK url h)] }) := by
    simp [mcDelete, popFail]
  refine ⟨{ st3 with
      cache := cDel (.assocK url h)
        (cSet (.assocK url rp.assoc.handle)
          (AssociationRecord.serialize ⟨r.next, rp.assoc⟩) st3.cache),
      fails := [],
      trace := st3.trace ++
        [Op.set (.assocK url rp.assoc.handle)
          (AssociationRecord.serialize ⟨r.next, rp.assoc⟩) none,
         Op.del (.assocK url h)] }, ?_, ?_, rfl, hr3⟩
  · simp only [removeAssociation, hga, mcGet, cGet, List.append_assoc,
      List.cons_append, List.nil_append]
    rw [heq3]
    simp only [truthy, hne, Bool.not_false, if_true, and_self]
    rw [hset]
    rw [if_neg (show ¬((some rp : Option AssociationRecord) = none ∧ True)
      by simp)]
    dsimp only
    rw [hdel]
    simp
  · simp [cSet, cDel, hc3]

/-- The chain after removing a reachable handle: the predecessor (when
one exists) is rewritten to point at the removed record's `next`. -/
def spliceAway (pre : List (Str × AssociationRecord))
    (r : AssociationRecord) (post : List (Str × AssociationRecord)) :
    List (Str × AssociationRecord) :=
  match pre.getLast? with
  | none => post
  | some pl => pre.dropLast ++ (pl.1, ⟨r.next, pl.2.assoc⟩) :: post

theorem spliceAway_nil (r : AssociationRecord)
    (post : List (Str × AssociationRecord)) :
    spliceAway [] r post = post := rfl

theorem spliceAway_concat (lpre : List (Str × AssociationRecord))
    (p : Str) (rp r : AssociationRecord)
    (post : List (Str × AssociationRecord)) :
    spliceAway (lpre ++ [(p, rp)]) r post
      = lpre ++ (p, ⟨r.next, rp.assoc⟩) :: post := by
  simp [spliceAway, List.getLast?_concat, List.dropLast_concat]

theorem chainEnd_append_cons (next : Option Str)
    (xs : List (Str × AssociationRecord)) (q : Str × AssociationRecord)
    (ys : List (Str × AssociationRecord)) :
    chainEnd next (xs ++ q :: ys) = chainEnd q.2.next ys := by
  have h1 : chainEnd next (xs ++ q :: ys) = chainEnd next (q :: ys) := by
    unfold chainEnd
    rw [List.getLast?_append]
    rcases hq : (q :: ys).getLast? with _ | pl
    · simp at hq
    · rfl
  rw [h1]
  obtain ⟨qh, qr⟩ := q
  exact chainEnd_cons next qh qr ys

theorem chainStop_transfer (c c' : Cache) (url : Str) (e : Option Str)
    (hstop : chainStop c url e = true)
    (hpres : ∀ sf, e = some sf → sf.isEmpty = false →
      lookupA (url, sf) c.assocs = none →
      lookupA (url, sf) c'.assocs = none) :
    chainStop c' url e = true := by
  cases e with
  | none => rfl
  | some sf =>
    simp only [chainStop] at hstop ⊢
    by_cases hse : sf.isEmpty
    · simp [hse]
    · have hse' : sf.isEmpty = false := by
        cases hb : sf.isEmpty
        · rfl
        · exact absurd hb hse
      rcases (Bool.or_eq_true _ _).mp hstop with hc | hc
      · exact absurd hc hse
      · have := hpres sf rfl hse' (of_decide_eq_true hc)
        simp [this]

theorem readRec_lookup_isSome (c : Cache) (url h : Str)
    (r : AssociationRecord) (hr : readRec c url h = some r) :
    lookupA (url, h) c.assocs ≠ none := by
  intro hc
  unfold readRec at hr
  rw [hc] at hr
  cases hr

/-- C2: if `removeAssociation` returns true on a state whose
root-reachable chain is the well-formed `pre ++ (h, r) :: post` (no
concurrent mutation; injected failures absent), then afterwards the
target is unreadable, the root-reachable chain is exactly
`spliceAway pre r post` — so every other reachable handle remains
reachable — and the root pointer is advanced to the target's former
next-handle when the target was the head, and unchanged (with the
predecessor spliced) when the target was interior or the tail. -/
theorem c2_remove_keeps_others_reachable (url h : Str) (st : St)
    (pre post : List (Str × AssociationRecord)) (r : AssociationRecord)
    (fuel : Nat)
    (hchain : rootChain st url (pre ++ (h, r) :: post) = true)
    (hwf : wfChain (pre ++ (h, r) :: post))
    (hfails : st.fails = [])
    (hfuel : pre.length + 1 < fuel) :
    ∃ st', removeAssociation fuel url h st = some (.ok (true, st')) ∧
      readRec st'.cache url h = none ∧
      rootChain st' url (spliceAway pre r post) = true ∧
      (pre = [] → lookupA url st'.cache.roots = some (pyShow r.next)) ∧
      (pre ≠ [] → st'.cache.roots = st.cache.roots) ∧
      (∀ h2 ∈ (pre ++ (h, r) :: post).map Prod.fst, h2 ≠ h →
        h2 ∈ (spliceAway pre r post).map Prod.fst) := by
  unfold rootChain chainAt at hchain
  obtain ⟨hseg, hstop⟩ := Bool.and_eq_true_iff.mp hchain
  rw [chainEnd_append_cons] at hseg hstop
  have hstopE : chainStop st.cache url (chainEnd r.next post) = true :=
    hstop
  rcases (chainSeg_append st.cache url pre ((h, r) :: post)
      (lookupA url st.cache.roots) (chainEnd (h, r).2.next post)).mp hseg
    with ⟨hseg1, hseg2⟩
  simp only [chainSeg, Bool.and_eq_true, decide_eq_true_eq] at hseg2
  obtain ⟨⟨⟨hmid, hneB⟩, hrec⟩, hseg3⟩ := hseg2
  rw [hmid] at hseg1
  have hseg3E : chainSeg st.cache url r.next post (chainEnd r.next post)
      = true := hseg3
  have hne : h.isEmpty = false := by simpa using hneB
  obtain ⟨hnd, hall⟩ := hwf
  obtain ⟨hh1, hh2, hh3, hh4, hh5⟩ := hall (h, r) (by simp)
  obtain ⟨s0, hs0⟩ := Option.ne_none_iff_exists'.mp hh4
  have hpyr : pyShow r.next = s0 := by rw [hs0]; rfl
  rw [List.map_append, List.map_cons] at hnd
  rcases List.nodup_append.mp hnd with ⟨hndpre, hndcons, hdisj⟩
  rcases List.nodup_cons.mp hndcons with ⟨hhpost, hndpost⟩
  have hhpre : h ∉ pre.map Prod.fst := fun hm =>
    hdisj hm (List.mem_cons_self _ _)
  have hlookh : lookupA (url, h) st.cache.assocs ≠ none :=
    readRec_lookup_isSome st.cache url h r hrec
  rcases List.eq_nil_or_concat pre with hpre | ⟨lpre, pl, hpre⟩
  · -- the target is the head
    subst hpre
    simp only [chainSeg, decide_eq_true_eq] at hseg1
    obtain ⟨st', hrem, hcache, hfails', hrands'⟩ :=
      removeAssociation_run_head url h st r fuel hrec hseg1 hne hfails
        (by omega)
    have hA' : st'.cache.assocs = removeA (url, h) st.cache.assocs := by
      rw [hcache]
    have hR' : st'.cache.roots
        = insertA url (pyShow r.next) st.cache.roots := by
      rw [hcache]
    have hselfgone : readRec st'.cache url h = none := by
      unfold readRec
      rw [hA', lookupA_removeA_self]
      rfl
    have hrootlook : lookupA url st'.cache.roots
        = some (pyShow r.next) := by
      rw [hR']
      exact lookupA_insertA_self _ _ _
    have hpostpres : ∀ p2 ∈ post,
        readRec st'.cache url p2.1 = readRec st.cache url p2.1 := by
      intro p2 hp2
      have hp2h : p2.1 ≠ h := by
        intro hc
        apply hhpost
        rw [← hc]
        exact List.mem_map.mpr ⟨p2, hp2, rfl⟩
      unfold readRec
      rw [hA', lookupA_removeA_ne _ _ _ (by simp [hp2h])]
    refine ⟨st', hrem, hselfgone, ?_, fun _ => hrootlook,
      fun hcon => absurd rfl hcon, ?_⟩
    · rw [spliceAway_nil]
      unfold rootChain chainAt
      rw [hrootlook, hpyr]
      have hends : chainEnd (some s0) post = chainEnd r.next post := by
        cases post with
        | nil =>
          simp only [chainEnd, List.getLast?_nil]
          exact hs0.symm
        | cons q t =>
          simp only [chainEnd]
          rcases hq : (q :: t).getLast? with _ | pl2
          · simp at hq
          · rfl
      rw [Bool.and_eq_true, hends]
      constructor
      · rw [chainSeg_congr st.cache st'.cache url post (some s0)
          (chainEnd r.next post) hpostpres]
        rw [← hs0]
        exact hseg3E
      · apply chainStop_transfer st.cache st'.cache url _ hstopE
        intro sf hsf hsfne hsfnone
        have hsfh : sf ≠ h := by
          intro hc
          rw [hc] at hsfnone
          exact hlookh hsfnone
        rw [hA', lookupA_removeA_ne _ _ _ (by simp [hsfh])]
        exact hsfnone
    · intro h2 hh2 hne2
      rw [spliceAway_nil]
      simp only [List.nil_append, List.map_cons, List.mem_cons] at hh2
      rcases hh2 with hh2 | hh2
      · exact absurd hh2 hne2
      · exact hh2
  · -- the target has a predecessor
    obtain ⟨p, rp⟩ := pl
    rw [List.concat_eq_append] at hpre
    subst hpre
    obtain ⟨hp1, hp2, hp3, hp4, hp5⟩ := hall (p, rp) (by simp)
    have hfuel' : (lpre ++ [(p, rp)]).length < fuel := by
      simp only [List.length_append, List.length_cons,
        List.length_nil] at hfuel ⊢
      omega
    obtain ⟨st', hrem, hcache, hfails', hrands'⟩ :=
      removeAssociation_run_interior url h p st r rp lpre fuel hrec
        hseg1 hhpre hp3 hne hfails hfuel'
    have hA' : st'.cache.assocs = removeA (url, h)
        (insertA (url, p)
          (AssociationRecord.serialize ⟨r.next, rp.assoc⟩)
          st.cache.assocs) := by
      rw [hcache]
    have hR' : st'.cache.roots = st.cache.roots := by
      rw [hcache]
    have hppre : p ∈ (lpre ++ [(p, rp)]).map Prod.fst :=
      List.mem_map.mpr ⟨(p, rp),
        List.mem_append_right _ (List.mem_cons_self _ _), rfl⟩
    have hph : p ≠ h := by
      intro hc
      exact hhpre (hc ▸ hppre)
    rcases List.nodup_append.mp (by simpa using hndpre) with
      ⟨_, _, hdisj2⟩
    have hplpre : p ∉ lpre.map Prod.fst := fun hm =>
      hdisj2 hm (by simp)
    have hppost : p ∉ post.map Prod.fst := by
      intro hm
      exact hdisj hppre (by simp [hm])
    have hhlpre : h ∉ lpre.map Prod.fst := fun hm =>
      hhpre (by simp [hm])
    have hselfgone : readRec st'.cache url h = none := by
      unfold readRec
      rw [hA', lookupA_removeA_self]
      rfl
    have hpres : ∀ q1 : Str, q1 ≠ h → q1 ≠ p →
        readRec st'.cache url q1 = readRec st.cache url q1 := by
      intro q1 h1 h2
      unfold readRec
      rw [hA', lookupA_removeA_ne _ _ _ (by simp [h1]),
        lookupA_insertA_ne _ _ _ _ (by simp [h2])]
    have hreadp : readRec st'.cache url p
        = some ⟨r.next, rp.assoc⟩ := by
      unfold readRec
      rw [hA', lookupA_removeA_ne _ _ _ (by simp [hph]),
        lookupA_insertA_self]
      simp only [Option.some_bind]
      rw [AssociationRecord.deserialize_serialize_rec ⟨r.next, rp.assoc⟩ hh5]
      rw [show pyShow (⟨r.next, rp.assoc⟩ : AssociationRecord).next
          = s0 from hpyr]
      rw [← hs0]
    rcases (chainSeg_append st.cache url lpre [(p, rp)]
        (lookupA url st.cache.roots) (some h)).mp hseg1
      with ⟨hsegL, hsegP⟩
    simp only [chainSeg, Bool.and_eq_true, decide_eq_true_eq] at hsegP
    obtain ⟨⟨⟨hmid2, hpneB⟩, hrecp⟩, hrpnext⟩ := hsegP
    have hlpres : ∀ p2 ∈ lpre,
        readRec st'.cache url p2.1 = readRec st.cache url p2.1 := by
      intro p2 hp2
      refine hpres p2.1 ?_ ?_
      · intro hc
        exact hhlpre (by rw [← hc]; exact List.mem_map.mpr ⟨p2, hp2, rfl⟩)
      · intro hc
        exact hplpre (by rw [← hc]; exact List.mem_map.mpr ⟨p2, hp2, rfl⟩)
    have hpostpres : ∀ p2 ∈ post,
        readRec st'.cache url p2.1 = readRec st.cache url p2.1 := by
      intro p2 hp2
      refine hpres p2.1 ?_ ?_
      · intro hc
        exact hhpost (by rw [← hc]; exact List.mem_map.mpr ⟨p2, hp2, rfl⟩)
      · intro hc
        exact hppost (by rw [← hc]; exact List.mem_map.mpr ⟨p2, hp2, rfl⟩)
    refine ⟨st', hrem, hselfgone, ?_,
      fun hcon => absurd hcon (by simp), fun _ => hR', ?_⟩
    · rw [spliceAway_concat]
      unfold rootChain chainAt
      rw [hR']
      have hendnew : chainEnd (lookupA url st.cache.roots)
          (lpre ++ (p, (⟨r.next, rp.assoc⟩ : AssociationRecord)) :: post)
          = chainEnd r.next post := by
        rw [chainEnd_append_cons]
      rw [Bool.and_eq_true, hendnew]
      constructor
      · apply (chainSeg_append st'.cache url lpre
          ((p, (⟨r.next, rp.assoc⟩ : AssociationRecord)) :: post)
          (lookupA url st.cache.roots) (chainEnd r.next post)).mpr
        have hmid2' : chainEnd (lookupA url st.cache.roots) lpre
            = some p := hmid2
        constructor
        · rw [chainSeg_congr st.cache st'.cache url lpre
            (lookupA url st.cache.roots)
            (chainEnd (lookupA url st.cache.roots) lpre) hlpres]
          exact hsegL
        · rw [hmid2']
          simp only [chainSeg, Bool.and_eq_true, decide_eq_true_eq]
          refine ⟨⟨⟨trivial, ?_⟩, hreadp⟩, ?_⟩
          · simpa [List.isEmpty_iff] using hp1
          · rw [chainSeg_congr st.cache st'.cache url post r.next
              (chainEnd r.next post) hpostpres]
            exact hseg3E
      · apply chainStop_transfer st.cache st'.cache url _ hstopE
        intro sf hsf hsfne hsfnone
        have hsfh : sf ≠ h := by
          intro hc
          rw [hc] at hsfnone
          exact hlookh hsfnone
        have hsfp : sf ≠ p := by
          intro hc
          rw [hc] at hsfnone
          exact readRec_lookup_isSome st.cache url p rp hrecp hsfnone
        rw [hA', lookupA_removeA_ne _ _ _ (by simp [hsfh]),
          lookupA_insertA_ne _ _ _ _ (by simp [hsfp])]
        exact hsfnone
    · intro h2 hh2 hne2
      rw [spliceAway_concat]
      simp only [List.map_append, List.map_cons, List.map_nil,
        List.mem_append, List.mem_cons, List.not_mem_nil,
        or_false] at hh2 ⊢
      tauto

/-- C2 witness: removing the tail `h1` from the concrete two-record
chain of `stTie`, instantiating the removal theorem. -/
theorem c2_witness :
    (rootChain stTie "u".data
        ([("h2".data, (⟨some "h1".data, aT2⟩ : AssociationRecord))] ++
          ("h1".data, (⟨some "None".data, aT1⟩ : AssociationRecord))
            :: []) = true ∧
      wfChain ([("h2".data,
          (⟨some "h1".data, aT2⟩ : AssociationRecord))] ++
          ("h1".data, (⟨some "None".data, aT1⟩ : AssociationRecord))
            :: []) ∧
      stTie.fails = [] ∧
      ([("h2".data, (⟨some "h1".data, aT2⟩ : AssociationRecord))]
        : List (Str × AssociationRecord)).length + 1 < 3) ∧
    (∃ st', removeAssociation 3 "u".data "h1".data stTie
        = some (.ok (true, st')) ∧
      readRec st'.cache "u".data "h1".data = none ∧
      rootChain st' "u".data
        (spliceAway
          [("h2".data, (⟨some "h1".data, aT2⟩ : AssociationRecord))]
          (⟨some "None".data, aT1⟩ : AssociationRecord) []) = true ∧
      (([("h2".data, (⟨some "h1".data, aT2⟩ : AssociationRecord))]
          : List (Str × AssociationRecord)) = [] →
        lookupA "u".data st'.cache.roots
          = some (pyShow (some "None".data))) ∧
      (([("h2".data, (⟨some "h1".data, aT2⟩ : AssociationRecord))]
          : List (Str × AssociationRecord)) ≠ [] →
        st'.cache.roots = stTie.cache.roots) ∧
      (∀ h2 ∈ ([("h2".data,
          (⟨some "h1".data, aT2⟩ : AssociationRecord))] ++
          ("h1".data, (⟨some "None".data, aT1⟩ : AssociationRecord))
            :: []).map Prod.fst,
        h2 ≠ "h1".data →
        h2 ∈ (spliceAway
          [("h2".data, (⟨some "h1".data, aT2⟩ : AssociationRecord))]
          (⟨some "None".data, aT1⟩ : AssociationRecord) []).map Prod.fst)) :=
  ⟨⟨by decide, by decide, by decide, by decide⟩,
    c2_remove_keeps_others_reachable "u".data "h1".data stTie
      [("h2".data, (⟨some "h1".data, aT2⟩ : AssociationRecord))] []
      (⟨some "None".data, aT1⟩ : AssociationRecord) 3 (by decide)
      (by decide) (by decide) (by decide)⟩

/-- A spec-valid association whose handle is the string `None` — a
non-empty printable identifier that nothing in the interface reserves. -/
def aN : Association := ⟨"None".data, "s".data, 5⟩

/-- The state after storing `aN` as the first association of its server:
the tail marker the store writes is the rendering of Python `None`,
which equals this record's own handle, so the record links to itself. -/
def nSt : St :=
  match runStores "u".data [aN] emptySt with
  | .ok st => st
  | .error _ => emptySt

/-- C1 counterexample: a single fresh store of the distinct, non-empty,
printable handle `None` succeeds, but the written record's next-handle
is its own handle (the `str(None)` tail marker), the root points at it,
and the scan of `LookupBest` never terminates — so `LookupBest` does
not return the stored payload of maximal expiry for this store
sequence. -/
theorem c1_counterexample :
    runStores "u".data [aN] emptySt = .ok nSt ∧
    readRec nSt.cache "u".data "None".data
      = some ⟨some "None".data, aN⟩ ∧
    lookupA "u".data nSt.cache.roots = some "None".data ∧
    ¬ ScanTerminates "u".data nSt := by
  refine ⟨rfl, by decide, by decide, ?_⟩
  rintro ⟨fuel, hsome⟩
  have hdes : AssociationRecord.deserialize
      (AssociationRecord.serialize ⟨some "None".data, aN⟩)
      = some ⟨some "None".data, aN⟩ := by decide
  have hnone : scanAssociationRecords fuel "u".data nSt = none := by
    simp only [scanAssociationRecords]
    have hroot : (mcGet (.rootK "u".data) nSt).1 = some "None".data := by
      decide
    rw [hroot]
    apply scanLoop_selfloop "u".data "None".data
      (AssociationRecord.serialize ⟨some "None".data, aN⟩)
      ⟨some "None".data, aN⟩ hdes rfl (by decide)
    decide
  rw [hnone] at hsome
  cases hsome
